import Mathlib

/-!
Verification of the J&K Cabinetry scraper (`scrape_products_4.py`).

This file gives a shallow embedding, in Lean 4, of the pure core of the
scraper: the image-URL resolution helpers (`strip_resolution_suffix`,
`sanitize_filename`), the canonical-key normalization used for
deduplication, the product-page parser, the collection-page link
extractor, and the crawl orchestration loop of `process_category`.

Modelling conventions:
* Python strings are Lean `String`s (lists of characters); the regex
  character class `\d` is modelled as the ASCII digits (`Char.isDigit`),
  `[A-Za-z]` as ASCII letters, and Python `str.strip()` as trimming the
  ASCII whitespace characters.  `os.path.basename` is modelled with its
  POSIX behaviour (everything after the last `/`).
* Network fetches, `urljoin`, the filesystem, and the HTML/JSON decoding
  done by `requests`/BeautifulSoup/`json.loads` are external
  collaborators; they enter the model as function parameters or as the
  already-decoded fields of a page structure.
* The Python regexes used by the scraper are translated into executable
  character-list scanners that follow the `re` engine's leftmost,
  greedy-with-backtracking semantics, including the behaviour of `$`
  before a trailing newline.
* Exceptions are modelled with `Option`/`Except`; Python `float` becomes
  `ℚ` (the numeric value itself plays no role in any claim).
-/

/-- ASCII letter, the regex class `[A-Za-z]`. -/
def isAsciiLetter (c : Char) : Bool :=
  ('A' ≤ c && c ≤ 'Z') || ('a' ≤ c && c ≤ 'z')

/-- Characters kept by `sanitize_filename`'s regex class `[A-Za-z0-9_.-]`. -/
def isAllowedChar (c : Char) : Bool :=
  isAsciiLetter c || c.isDigit || c == '_' || c == '.' || c == '-'

/-- ASCII whitespace, modelling the characters removed by Python `str.strip()`. -/
def isPySpace (c : Char) : Bool :=
  c == ' ' || c == '\t' || c == '\n' || c == '\r' || c == '\x0b' || c == '\x0c'

/-- Python `str.strip()` on a character list. -/
def pyStripList (l : List Char) : List Char :=
  ((l.dropWhile isPySpace).reverse.dropWhile isPySpace).reverse

/-- Python `str.strip()`. -/
def pyStrip (s : String) : String := ⟨pyStripList s.data⟩

/-- Replacement function of `re.sub(r"[^A-Za-z0-9_.-]", "_", filename)`:
characters outside the allowed class become underscores. -/
def replaceDisallowed (c : Char) : Char :=
  if isAllowedChar c then c else '_'

/-- The scraper's `sanitize_filename` (`scrape_products_4.py:167`):
`filename.split("?")[0]`, then `os.path.basename` (POSIX: the part after
the last `/`), then `re.sub(r"[^A-Za-z0-9_.-]", "_", ...)`. -/
def sanitize_filename (filename : String) : String :=
  let s1 := filename.data.takeWhile (fun c => c != '?')
  let s2 := (s1.reverse.takeWhile (fun c => c != '/')).reverse
  ⟨s2.map replaceDisallowed⟩

/-- No newline occurs in the list (`.` of Python regexes does not match `\n`). -/
def noNewline (l : List Char) : Bool := l.all (fun c => c != '\n')

/-- Try-first-success over a list of candidate repetition counts, modelling
the backtracking order of a greedy bounded repetition in `re`. -/
def tryKs (f : Nat → Option Nat) : List Nat → Option Nat
  | [] => none
  | k :: ks =>
    match f k with
    | some r => some r
    | none => tryKs f ks

/-- Helper for the `$` end-anchoring of the lookahead. -/
def dollarLetters (full : List Char) : List Char → Bool
  | [] => false
  | d :: rs =>
    if d = '\n' then !rs.isEmpty && rs.all isAsciiLetter
    else full.all isAsciiLetter

/-- The lookahead `(?=\.[A-Za-z]+$)` of the resolution-suffix regexes: a
literal dot, then letters up to `$` (`dollarLetters` inspects the
reversed remainder: without `re.MULTILINE`, `$` matches at the end of the
string or just before a trailing newline). -/
def extLookahead : List Char → Bool
  | [] => false
  | c :: rest => c == '.' && dollarLetters rest rest.reverse

/-- Match `\d{2,5}` (greedy) followed by the extension lookahead, at the
start of `r2`; returns the number of digits consumed. -/
def tryD2 (r2 : List Char) : Option Nat :=
  tryKs (fun k2 =>
    if (r2.take k2).length = k2 && (r2.take k2).all Char.isDigit
        && extLookahead (r2.drop k2) then some k2 else none) [5, 4, 3, 2]

/-- Match `\d{2,5}x\d{2,5}(?=\.[A-Za-z]+$)` at the start of `rest`
(the part following a literal `_`); returns the total number of
characters consumed by the match (digits, `x`, digits). -/
def tryD1 (rest : List Char) : Option Nat :=
  tryKs (fun k1 =>
    if (rest.take k1).length = k1 && (rest.take k1).all Char.isDigit then
      match rest.drop k1 with
      | 'x' :: r2 => (tryD2 r2).map (fun k2 => k1 + 1 + k2)
      | _ => none
    else none) [5, 4, 3, 2]

/-- Scanner for `re.sub(r"_(\d{2,5}x\d{2,5})(?=\.[A-Za-z]+$)", "", base)`:
walk the string left to right; at each `_` try to match the pattern and,
on success, delete the matched text.  After a successful match the
remainder of the string is exactly the lookahead region `.`+letters
(possibly with a final newline), which contains no `_`, so no further
match is possible and the remainder is returned as-is. -/
def scanStripRes : List Char → List Char
  | [] => []
  | c :: rest =>
    if c = '_' then
      match tryD1 rest with
      | some n => rest.drop n
      | none => c :: scanStripRes rest
    else c :: scanStripRes rest

/-- The scraper's `strip_resolution_suffix` (`scrape_products_4.py:185`):
split at the first `?` (`url.partition("?")`), apply the resolution-suffix
regex to the base, re-attach the query part unchanged. -/
def strip_resolution_suffix (url : String) : String :=
  let base := url.data.takeWhile (fun c => c != '?')
  let query := url.data.dropWhile (fun c => c != '?')
  ⟨scanStripRes base ++ query⟩

/-- Modelled from the spec: a base (query-free) URL "ends in a `_WxH`
marker (W and H each 2–5 digits) immediately before the file extension".
Decided by parsing the string from its end: a nonempty run of letters,
then `.`, then 2–5 digits, then `x`, then 2–5 digits, then `_`. -/
def hasTrailingMarker (base : List Char) : Bool :=
  let r := base.reverse
  let extR := r.takeWhile isAsciiLetter
  let r1 := r.dropWhile isAsciiLetter
  match r1 with
  | '.' :: r2 =>
    let hR := r2.takeWhile Char.isDigit
    let r3 := r2.dropWhile Char.isDigit
    (!extR.isEmpty && decide (2 ≤ hR.length) && decide (hR.length ≤ 5)) &&
    match r3 with
    | 'x' :: r4 =>
      let wR := r4.takeWhile Char.isDigit
      let r5 := r4.dropWhile Char.isDigit
      (decide (2 ≤ wR.length) && decide (wR.length ≤ 5)) &&
      match r5 with
      | '_' :: _ => true
      | _ => false
    | _ => false
  | _ => false

/-- Characters `/`, `?`, `#` — the class of `re.sub(r"[/?#].*$", "", url)`. -/
def isSepChar (c : Char) : Bool := c == '/' || c == '?' || c == '#'

/-- Can `.*$` consume the remainder `l` of the subject?  If so, return the
text left in place (empty, or the trailing newline that `$` matched
before).  Without `re.DOTALL`, `.` does not match `\n`. -/
def dollarMatchTail (l : List Char) : Option (List Char) :=
  if noNewline l then some []
  else if l.getLast? == some '\n' && noNewline l.dropLast then some ['\n']
  else none

/-- Scanner for `re.sub(r"[/?#].*$", "", url)` (`scrape_products_4.py:573`):
at the leftmost `/`, `?` or `#` from which `.*$` can reach the end of the
string, delete the match.  The residue (`[]` or `['\n']`) contains no
separator, so no further match is possible. -/
def stripFromSep : List Char → List Char
  | [] => []
  | c :: rest =>
    if isSepChar c then
      match dollarMatchTail rest with
      | some residue => residue
      | none => c :: stripFromSep rest
    else c :: stripFromSep rest

/-- The orchestrator's deduplication key (`scrape_products_4.py:573,582`):
`re.sub(r"[/?#].*$", "", full_url)`. -/
def canonical_key (url : String) : String := ⟨stripFromSep url.data⟩

/-- The scraped record (`@dataclass Product`, `scrape_products_4.py:156`).
Python's `Optional[float]` price is modelled as `Option ℚ`. -/
structure Product where
  id : String
  name : String
  price : Option ℚ
  description : String
  image : String
deriving DecidableEq, Repr

/-- Numeric value of a digit run (most significant first). -/
def digitsVal (l : List Char) : Nat :=
  l.foldl (fun acc c => 10 * acc + (c.toNat - '0'.toNat)) 0

/-- Python `float(s)` for a string drawn from `[0-9.]*`: it parses iff the
string has at least one digit and at most one dot; `ValueError` is `none`.
(The scraper only calls this on such strings, after
`re.sub(r"[^0-9.]+", "", price_text)`.) -/
def pyFloatOfCleaned (l : List Char) : Option ℚ :=
  if l.any Char.isDigit && decide (l.count '.' ≤ 1) then
    let ip := l.takeWhile Char.isDigit
    let rest := l.dropWhile Char.isDigit
    match rest with
    | '.' :: fp => some ((digitsVal ip : ℚ) + (digitsVal fp : ℚ) / ((10 : ℚ) ^ fp.length))
    | _ => some (digitsVal ip : ℚ)
  else none

/-- Leftmost match of `re.search(r"([A-Za-z0-9]+/[A-Za-z0-9]+)", title)`:
scan left to right; at an alphanumeric character take the maximal
alphanumeric run; if it is immediately followed by `/` and at least one
alphanumeric character, the (greedy) match is run ++ `/` ++ following run.
Positions inside a run fail exactly when its start does, so advancing one
character at a time yields the regex's leftmost match. -/
def isAlnumAscii (c : Char) : Bool := isAsciiLetter c || c.isDigit

def findIdMatch : List Char → Option (List Char)
  | [] => none
  | c :: rest =>
    if isAlnumAscii c then
      match (c :: rest).dropWhile isAlnumAscii with
      | '/' :: r2 =>
        let run2 := r2.takeWhile isAlnumAscii
        if !run2.isEmpty then
          some ((c :: rest).takeWhile isAlnumAscii ++ '/' :: run2)
        else findIdMatch rest
      | _ => findIdMatch rest
    else findIdMatch rest

/-- View of one fetched product-detail page, as seen through the exact
BeautifulSoup queries issued by `parse_product_page`.  Each field is the
outcome of one query on the (external) parsed DOM:
* `h1Text`: `soup.find("h1")`'s `get_text(strip=True)`, if an `h1` exists;
* `priceText`: `get_text(strip=True)` of the first element whose class
  matches the regex `price`, if any;
* `descTexts`: for each selector in `desc_selectors` (in order), the
  `get_text(" ", strip=True)` of `soup.select_one(sel)` when it matches;
* `metaDesc`: for the first `meta[name=description]`: `some contentAttr`
  when the tag exists (`contentAttr` is `none` when it has no `content`);
* `ogImage`: likewise for the first `meta[property=og:image]`;
* `imgSrcs`: the raw `src` values of every `img` element carrying a
  `src` attribute, in document order (`soup.find("img", src=True)` is the
  head of this list). -/
structure ProductPage where
  h1Text : Option String
  priceText : Option String
  descTexts : List (Option String)
  metaDesc : Option (Option String)
  ogImage : Option (Option String)
  imgSrcs : List String
deriving Repr

/-- The scraper's `parse_product_page` body after a successful fetch
(`scrape_products_4.py:429`–`496`), translated statement by statement.
The only operation in the `try` block that can raise and be caught by an
inner handler is `float(cleaned)`; no other modelled operation raises, so
the outer `except` branch is unreachable in the model. -/
def parse_product_page (pg : ProductPage) : Option (Product × String) :=
  let title : String := match pg.h1Text with | some t => t | none => ""
  let product_id : String :=
    match findIdMatch title.data with
    | some m => ⟨m⟩
    | none => title
  let price : Option ℚ :=
    match pg.priceText with
    | none => none
    | some ptext =>
      let cleaned := ptext.data.filter (fun c => c.isDigit || c == '.')
      if !cleaned.isEmpty then pyFloatOfCleaned cleaned else none
  let desc0 : String :=
    match pg.descTexts.findSome? id with
    | some t => t
    | none => ""
  let desc : String :=
    if desc0 = "" then
      match pg.metaDesc with
      | some contentAttr => pyStrip (match contentAttr with | some c => c | none => "")
      | none => desc0
    else desc0
  let image_url : String :=
    match pg.ogImage with
    | some (some c) =>
      if c ≠ "" then pyStrip c
      else match pg.imgSrcs.head? with | some s => pyStrip s | none => ""
    | _ => match pg.imgSrcs.head? with | some s => pyStrip s | none => ""
  if image_url = "" then none
  else
    let high_res_url := strip_resolution_suffix image_url
    let filename0 := sanitize_filename high_res_url
    let filename : String := ⟨scanStripRes filename0.data⟩
    some ({ id := product_id, name := title, price := price,
            description := desc, image := filename }, high_res_url)

/-- Modelled from the spec (§4.3): the candidate image reference of a
product page — the `og:image` content when the tag exists with a truthy
`content`, else the `src` of the first `img` carrying a `src` attribute —
stripped of surrounding whitespace. -/
def selectedImageRef (pg : ProductPage) : String :=
  match pg.ogImage with
  | some (some c) =>
    if c ≠ "" then pyStrip c
    else match pg.imgSrcs.head? with | some s => pyStrip s | none => ""
  | _ => match pg.imgSrcs.head? with | some s => pyStrip s | none => ""

/-- JSON values as decoded by `json.loads` (numbers restricted to
integers; no claim depends on numeric JSON values). -/
inductive Json where
  | null : Json
  | bool : Bool → Json
  | num : Int → Json
  | str : String → Json
  | arr : List Json → Json
  | obj : List (String × Json) → Json

/-- Python truthiness of a decoded JSON value. -/
def jsonTruthy : Json → Bool
  | .null => false
  | .bool b => b
  | .num n => n != 0
  | .str s => s != ""
  | .arr l => !l.isEmpty
  | .obj l => !l.isEmpty

/-- Python `dict.get(key)` on a decoded JSON object: last binding wins
(as in `json.loads` with duplicate keys); `none` models Python `None`. -/
def objGet (kvs : List (String × Json)) (k : String) : Option Json :=
  (kvs.reverse.find? (fun kv => kv.1 == k)).map (fun kv => kv.2)

/-- Python iteration `for ev in events` over a decoded JSON value: lists
iterate their elements, strings their characters, dicts their keys; other
values raise `TypeError` (caught by the extractor's `except`). -/
def iterElems : Json → Except Unit (List Json)
  | .arr l => .ok l
  | .str s => .ok (s.data.map (fun c => Json.str ⟨[c]⟩))
  | .obj kvs => .ok (kvs.map (fun kv => Json.str kv.1))
  | _ => .error ()

/-- Inner loop body of the structured-data strategy
(`scrape_products_4.py:361`–`375`): process one event, appending product
URLs; `url.strip()` on a truthy non-string raises (`AttributeError`). -/
def eventUrls (acc : List String) (ev : Json) : Except Unit (List String) :=
  match ev with
  | .arr [e0, details] =>
    (match e0 with
     | .str s =>
       if s = "collection_viewed" then
         let collection_info : Option Json :=
           match details with
           | .obj kvs => objGet kvs "collection"
           | _ => none
         match collection_info with
         | some (.obj ckvs) =>
           if jsonTruthy (.obj ckvs) then
             match objGet ckvs "productVariants" with
             | some (.arr variants) =>
               if jsonTruthy (.arr variants) then
                 variants.foldlM (fun (a : List String) variant => do
                   let prod : Option Json :=
                     match variant with
                     | .obj vkvs => objGet vkvs "product"
                     | _ => none
                   match prod with
                   | some (.obj pkvs) =>
                     if jsonTruthy (.obj pkvs) then
                       match objGet pkvs "url" with
                       | some u =>
                         if jsonTruthy u then
                           match u with
                           | .str us => pure (a ++ [pyStrip us])
                           | _ => .error ()
                         else pure a
                       | none => pure a
                     else pure a
                   | _ => pure a) acc
               else pure acc
             | _ => pure acc
           else pure acc
         | _ => pure acc
       else pure acc
     | _ => pure acc)
  | _ => pure acc

/-- URLs contributed by one script's decoded `data-events` value: iterate
the events, accumulating onto the URLs gathered so far. -/
def scriptUrls (j : Json) (acc : List String) : Except Unit (List String) := do
  let evs ← iterElems j
  evs.foldlM eventUrls acc

/-- The `try` block of `parse_collection_page`
(`scrape_products_4.py:350`–`378`): iterate the scripts that carry a
`data-events` attribute; `none` models an empty attribute value
(`if not raw_events: continue`), `.error` a `json.loads` failure; stop at
the first script after which at least one URL has been collected. -/
def jsonLoop : List (Option (Except Unit Json)) → List String → Except Unit (List String)
  | [], acc => .ok acc
  | none :: rest, acc => jsonLoop rest acc
  | some (.error _) :: _rest, _acc => .error ()
  | some (.ok j) :: rest, acc => do
    let acc' ← scriptUrls j acc
    if !acc'.isEmpty then .ok acc' else jsonLoop rest acc'

/-- The structured-data strategy's final result: an exception anywhere in
the `try` block resets `product_urls` to `[]` (the `except` handler). -/
def jsonStrategy (scripts : List (Option (Except Unit Json))) : List String :=
  match jsonLoop scripts [] with
  | .ok urls => urls
  | .error _ => []

/-- View of one fetched listing page through the queries of
`parse_collection_page`:
* `scripts`: for each `script[data-events]` tag in order, the decoded
  parse outcome of its attribute (see `jsonLoop`);
* `gridItemDivs`, `productCardDivs`, `gridItemLis`, `productCardLis`: for
  each element matched by the respective selector of the fixed list
  `["div.grid__item", "div.product-card", "li.grid__item",
  "li.product-card"]`, the raw `href` of the first `a[href]` inside it
  (`none` when the card has no such anchor);
* `productClassAnchors`: for each element whose class matches the regex
  `product`, in order, the raw `href` of the first `a[href]` inside it. -/
structure ListingPage where
  scripts : List (Option (Except Unit Json))
  gridItemDivs : List (Option String)
  productCardDivs : List (Option String)
  gridItemLis : List (Option String)
  productCardLis : List (Option String)
  productClassAnchors : List (Option String)

/-- The four selector queries, in the order tried by the source. -/
def selectorCards (pg : ListingPage) : List (List (Option String)) :=
  [pg.gridItemDivs, pg.productCardDivs, pg.gridItemLis, pg.productCardLis]

/-- `parse_product_card` (`scrape_products_4.py:309`) followed by the
`if url:` filter: the first anchor's stripped href, dropped when absent
or empty after stripping. -/
def cardUrl (card : Option String) : Option String :=
  match card with
  | none => none
  | some href =>
    let u := pyStrip href
    if u = "" then none else some u

/-- Last-resort strategy (`scrape_products_4.py:399`–`402`): anchors
inside elements whose class contains `product`; note the truthiness test
is on the raw href, the appended value is stripped. -/
def genericUrls (elems : List (Option String)) : List String :=
  elems.foldl (fun acc e =>
    match e with
    | some href => if href ≠ "" then acc ++ [pyStrip href] else acc
    | none => acc) []

/-- HTML fallback of `parse_collection_page`
(`scrape_products_4.py:383`–`407`): the first selector matching at least
one element supplies the cards; only when no selector matches anything
are the `product`-class anchors used. -/
def htmlFallback (pg : ListingPage) : List String :=
  match (selectorCards pg).find? (fun cards => !cards.isEmpty) with
  | some cards => cards.foldl (fun acc card =>
      match cardUrl card with
      | some u => acc ++ [u]
      | none => acc) []
  | none => genericUrls pg.productClassAnchors

/-- The scraper's `parse_collection_page` on a successfully fetched page
(`scrape_products_4.py:332`–`408`). -/
def parse_collection_page (pg : ListingPage) : List String :=
  let product_urls := jsonStrategy pg.scripts
  if product_urls.isEmpty then htmlFallback pg else product_urls

/-- `BASE_URL` (`scrape_products_4.py:101`). -/
def BASE_URL : String := "https://www.jkcabinetry.com"

/-- `STYLE_CODES` (`scrape_products_4.py:108`). -/
def STYLE_CODES : List String :=
  ["s8", "s1", "s2", "s5", "k3", "h9", "h8", "h3", "a7", "c066", "m01",
   "k10", "k8", "j5"]

/-- Link normalization (`scrape_products_4.py:571`):
`link if link.startswith("http") else requests.compat.urljoin(BASE_URL, link)`.
`urljoin` is an external library function, passed in as `uj`. -/
def normalizeUrl (uj : String → String → String) (link : String) : String :=
  match link.data with
  | 'h' :: 't' :: 't' :: 'p' :: _ => link
  | _ => uj BASE_URL link

/-- Python `key in collected` / `collected[key]` on the insertion-ordered
dict, modelled as an association list (first binding wins on lookup; the
orchestrator never creates a duplicate key). -/
def alookup (k : String) : List (String × Product) → Option Product
  | [] => none
  | (k', v) :: rest => if k' = k then some v else alookup k rest

/-- The per-page link filter (`scrape_products_4.py:568`–`576`): normalize
each link, compute its canonical key, keep links whose key is not yet in
the style's seen-set, adding their keys to it.  Returns
`(new_links, seen_links)`. -/
def filter_new_links_go (uj : String → String → String) :
    List String → List String × List String → List String × List String
  | [], acc => acc
  | link :: rest, acc =>
    let full := normalizeUrl uj link
    let key := canonical_key full
    if key ∈ acc.2 then filter_new_links_go uj rest acc
    else filter_new_links_go uj rest (acc.1 ++ [full], key :: acc.2)

/-- Entry point of the filter: `new_links` starts empty, `seen_links` is
the style's seen-set so far. -/
def filter_new_links (uj : String → String → String) (links : List String)
    (seen : List String) : List String × List String :=
  filter_new_links_go uj links ([], seen)

/-- State threaded through the product loop: the category's collected
dict, the set of files written so far by successful downloads, and a log
of attempted downloads `(destination path, succeeded)`. -/
structure LoopState where
  collected : List (String × Product)
  written : List String
  downloads : List (String × Bool)

/-- Body of `for full_url in new_links` (`scrape_products_4.py:580`–`596`):
skip keys already collected; otherwise parse the product page (the
fetch+parse composite is the oracle `parseRes`, `none` covering both a
failed fetch and a no-image parse); attempt the image download when the
filename is nonempty and no such file exists (the result of
`download_image` is ignored); finally insert the product. -/
def process_new_links (parseRes : String → Option (Product × String))
    (fileExists : String → Bool) (downloadOK : String → Bool)
    (folder : String) : List String → LoopState → LoopState
  | [], st => st
  | full :: rest, st =>
    let key := canonical_key full
    if (alookup key st.collected).isSome then
      process_new_links parseRes fileExists downloadOK folder rest st
    else
      match parseRes full with
      | none => process_new_links parseRes fileExists downloadOK folder rest st
      | some (product, img_url) =>
        let dest := folder ++ "/" ++ product.image
        let existsNow := fileExists dest || st.written.contains dest
        let doDownload := product.image ≠ "" && !existsNow
        let st1 : LoopState :=
          { collected := st.collected ++ [(key, product)],
            written :=
              if doDownload && downloadOK img_url then dest :: st.written
              else st.written,
            downloads :=
              if doDownload then st.downloads ++ [(dest, downloadOK img_url)]
              else st.downloads }
        process_new_links parseRes fileExists downloadOK folder rest st1

/-- The per-style pagination loop (`scrape_products_4.py:555`–`599`),
with `fuel` remaining iterations of `while page <= max_pages` and
`fetchP n` the links returned by `parse_collection_page` for listing page
`n` (empty also when the fetch failed).  Returns the trace of fetched
pages — `(page number, links returned, seen-set before the page)` — and
the final loop state. -/
def process_style (uj : String → String → String) (fetchP : Nat → List String)
    (parseRes : String → Option (Product × String))
    (fileExists : String → Bool) (downloadOK : String → Bool) (folder : String) :
    Nat → Nat → List String → LoopState →
    List (Nat × List String × List String) × LoopState
  | 0, _page, _seen, st => ([], st)
  | fuel + 1, page, seen, st =>
    let links := fetchP page
    if links.isEmpty then ([(page, links, seen)], st)
    else
      let fn := filter_new_links uj links seen
      if fn.1.isEmpty then ([(page, links, seen)], st)
      else
        let st' := process_new_links parseRes fileExists downloadOK folder fn.1 st
        let rest := process_style uj fetchP parseRes fileExists downloadOK folder
          fuel (page + 1) fn.2 st'
        ((page, links, seen) :: rest.1, rest.2)

/-- `max_pages = 20` (`scrape_products_4.py:557`). -/
def MAX_PAGES : Nat := 20

/-- One style's crawl as started by `process_category`: page 1, empty
seen-set, twenty pages of fuel. -/
def run_style (uj : String → String → String) (fetchP : Nat → List String)
    (parseRes : String → Option (Product × String))
    (fileExists : String → Bool) (downloadOK : String → Bool) (folder : String)
    (st : LoopState) :
    List (Nat × List String × List String) × LoopState :=
  process_style uj fetchP parseRes fileExists downloadOK folder MAX_PAGES 1 [] st

/-- `process_category` (`scrape_products_4.py:526`–`599`): iterate the
style codes, each style running its pagination loop against the shared
collected dict; `fetch style page` abstracts fetching and link-extracting
one listing page of `{BASE_URL}/collections/{style}-{slug}`.  Returns the
final collected dict (what gets serialized to `products.json`). -/
def process_styles (uj : String → String → String)
    (fetch : String → Nat → List String)
    (parseRes : String → Option (Product × String))
    (fileExists : String → Bool) (downloadOK : String → Bool)
    (folder : String) : List String → LoopState → LoopState
  | [], st => st
  | style :: rest, st =>
    process_styles uj fetch parseRes fileExists downloadOK folder rest
      (run_style uj (fetch style) parseRes fileExists downloadOK folder st).2

def process_category (uj : String → String → String)
    (fetch : String → Nat → List String)
    (parseRes : String → Option (Product × String))
    (fileExists : String → Bool) (downloadOK : String → Bool)
    (folder : String) : List (String × Product) :=
  (process_styles uj fetch parseRes fileExists downloadOK folder STYLE_CODES
    { collected := [], written := [], downloads := [] }).collected

/-! ### List helper lemmas -/

theorem list_takeWhile_eq_self_of {p : Char → Bool} {l : List Char}
    (h : ∀ a ∈ l, p a = true) : l.takeWhile p = l := by
  induction l with
  | nil => rfl
  | cons a l ih =>
    rw [List.takeWhile_cons]
    simp only [h a (List.mem_cons_self a l), if_true]
    rw [ih (fun x hx => h x (List.mem_cons_of_mem a hx))]

theorem list_takeWhile_append_of_all {p : Char → Bool} {l1 l2 : List Char}
    (h : ∀ a ∈ l1, p a = true) :
    (l1 ++ l2).takeWhile p = l1 ++ l2.takeWhile p := by
  induction l1 with
  | nil => rfl
  | cons a l ih =>
    rw [List.cons_append, List.takeWhile_cons]
    simp only [h a (List.mem_cons_self a l), if_true]
    rw [ih (fun x hx => h x (List.mem_cons_of_mem a hx))]
    rfl

theorem list_dropWhile_append_of_all {p : Char → Bool} {l1 l2 : List Char}
    (h : ∀ a ∈ l1, p a = true) :
    (l1 ++ l2).dropWhile p = l2.dropWhile p := by
  induction l1 with
  | nil => rfl
  | cons a l ih =>
    rw [List.cons_append, List.dropWhile_cons]
    simp only [h a (List.mem_cons_self a l), if_true]
    exact ih (fun x hx => h x (List.mem_cons_of_mem a hx))

theorem list_takeWhile_append_stop {p : Char → Bool} {c : Char} (l1 l2 : List Char)
    (hc : p c = false) :
    (l1 ++ c :: l2).takeWhile p = l1.takeWhile p := by
  induction l1 with
  | nil => simp [List.takeWhile_cons, hc]
  | cons a l ih =>
    by_cases hpa : p a
    · simp only [List.cons_append, List.takeWhile_cons, hpa, if_true]
      rw [ih]
    · simp [List.takeWhile_cons, hpa]

theorem list_dropWhile_append_stop {p : Char → Bool} {c : Char} (l1 l2 : List Char)
    (hc : p c = false) :
    (l1 ++ c :: l2).dropWhile p = l1.dropWhile p ++ c :: l2 := by
  induction l1 with
  | nil => simp [List.dropWhile_cons, hc]
  | cons a l ih =>
    by_cases hpa : p a
    · simp only [List.cons_append, List.dropWhile_cons, hpa, if_true]
      rw [ih]
    · simp [List.dropWhile_cons, hpa]

theorem list_map_eq_self_of {f : Char → Char} {l : List Char}
    (h : ∀ a ∈ l, f a = a) : l.map f = l := by
  induction l with
  | nil => rfl
  | cons a l ih =>
    rw [List.map_cons, h a (List.mem_cons_self a l),
      ih (fun x hx => h x (List.mem_cons_of_mem a hx))]

theorem mem_takeWhile_sat {p : Char → Bool} {l : List Char} {a : Char}
    (h : a ∈ l.takeWhile p) : p a = true := by
  induction l with
  | nil => simp at h
  | cons b l ih =>
    rw [List.takeWhile_cons] at h
    by_cases hb : p b
    · simp only [hb, if_true, List.mem_cons] at h
      rcases h with rfl | h
      · exact hb
      · exact ih h
    · simp [hb] at h

theorem isAllowedChar_ne_qmark {c : Char} (hc : isAllowedChar c = true) : (c != '?') = true := by
  rcases eq_or_ne c '?' with rfl | h
  · exact absurd hc (by decide)
  · simp [h]

theorem isAllowedChar_ne_slash {c : Char} (hc : isAllowedChar c = true) : (c != '/') = true := by
  rcases eq_or_ne c '/' with rfl | h
  · exact absurd hc (by decide)
  · simp [h]

theorem sanitize_filename_chars_allowed (f : String) :
    ∀ a ∈ (sanitize_filename f).data, isAllowedChar a = true := by
  intro a ha
  simp only [sanitize_filename] at ha
  rcases List.mem_map.mp ha with ⟨c, _, rfl⟩
  by_cases hc : isAllowedChar c = true
  · simp only [replaceDisallowed, if_pos hc]; exact hc
  · simp only [replaceDisallowed, if_neg hc]; decide

theorem sanitize_filename_fixed {g : String}
    (h : ∀ a ∈ g.data, isAllowedChar a = true) : sanitize_filename g = g := by
  simp only [sanitize_filename]
  rw [list_takeWhile_eq_self_of (fun a ha => isAllowedChar_ne_qmark (h a ha))]
  rw [list_takeWhile_eq_self_of
    (fun a ha => isAllowedChar_ne_slash (h a (List.mem_reverse.mp ha)))]
  rw [List.reverse_reverse]
  rw [list_map_eq_self_of (fun a ha => by
    simp only [replaceDisallowed, if_pos (h a ha)])]

/-- C6: `sanitize_filename` strips any query component (its result only
depends on the part before the first `?`), discards directory components
(a `?`-free directory prefix is irrelevant), outputs only characters of
the class `[A-Za-z0-9_.-]`, and is idempotent:
`sanitize_filename (sanitize_filename x) = sanitize_filename x`. -/
theorem c6_sanitize_filename_spec :
    (∀ d n : String, (∀ c ∈ d.data, c ≠ '?') →
      sanitize_filename (d ++ "/" ++ n) = sanitize_filename n)
    ∧ (∀ f : String,
        sanitize_filename ⟨f.data.takeWhile (fun c => c != '?')⟩ = sanitize_filename f)
    ∧ (∀ f : String, (sanitize_filename f).data.all isAllowedChar = true)
    ∧ (∀ f : String, sanitize_filename (sanitize_filename f) = sanitize_filename f) := by
  refine ⟨?_, ?_, ?_, ?_⟩
  · intro d n hd
    have hdQ : ∀ c ∈ d.data, (fun c => c != '?') c = true := by
      intro c hc; simpa using hd c hc
    simp only [sanitize_filename, String.data_append]
    have h1 : ((d.data ++ ("/" : String).data) ++ n.data).takeWhile (fun c => c != '?')
        = d.data ++ '/' :: n.data.takeWhile (fun c => c != '?') := by
      rw [List.append_assoc, list_takeWhile_append_of_all hdQ]
      rfl
    rw [h1]
    have h2 : (d.data ++ '/' :: n.data.takeWhile (fun c => c != '?')).reverse
        = (n.data.takeWhile (fun c => c != '?')).reverse ++ '/' :: d.data.reverse := by
      simp
    rw [h2, list_takeWhile_append_stop _ _ (by decide)]
  · intro f
    have h : (f.data.takeWhile (fun c => c != '?')).takeWhile (fun c => c != '?')
        = f.data.takeWhile (fun c => c != '?') :=
      list_takeWhile_eq_self_of (fun a ha => @mem_takeWhile_sat (fun c => c != '?') f.data a ha)
    simp only [sanitize_filename]
    rw [h]
  · intro f
    rw [List.all_eq_true]
    exact sanitize_filename_chars_allowed f
  · intro f
    exact sanitize_filename_fixed (sanitize_filename_chars_allowed f)

/-- C1: the spec's CanonicalKey is the URL's scheme, host and path with
query string and fragment stripped; the code's regex `[/?#].*$` instead
deletes from the first `/` — the one inside `https://` — so the key it
computes for `https://www.jkcabinetry.com/products/sb30?variant=1` is the
bare string `https:`, not `https://www.jkcabinetry.com/products/sb30`.
This theorem evaluates the code at that failing input. -/
theorem c1_canonical_key_strips_host_and_path :
    canonical_key "https://www.jkcabinetry.com/products/sb30?variant=1" = "https:"
    ∧ ("https:" : String) ≠ "https://www.jkcabinetry.com/products/sb30" :=
  ⟨by decide, by decide⟩

theorem process_style_trace_length (uj : String → String → String)
    (fetchP : Nat → List String) (parseRes : String → Option (Product × String))
    (fileExists : String → Bool) (downloadOK : String → Bool) (folder : String) :
    ∀ fuel page seen st,
      ((process_style uj fetchP parseRes fileExists downloadOK folder
        fuel page seen st).1).length ≤ fuel := by
  intro fuel
  induction fuel with
  | zero => intro page seen st; simp [process_style]
  | succ n ih =>
    intro page seen st
    simp only [process_style]
    split
    · simp
    · split
      · simp
      · simpa using Nat.succ_le_succ (ih _ _ _)

/-- C9: for every style the pagination loop fetches at most 20 listing
pages (the `max_pages` hard cap), hence terminates even if the site
returns fresh links on every page. -/
theorem c9_pagination_bounded (uj : String → String → String)
    (fetchP : Nat → List String) (parseRes : String → Option (Product × String))
    (fileExists : String → Bool) (downloadOK : String → Bool) (folder : String)
    (st : LoopState) :
    ((run_style uj fetchP parseRes fileExists downloadOK folder st).1).length ≤ 20 := by
  have h := process_style_trace_length uj fetchP parseRes fileExists downloadOK folder
    MAX_PAGES 1 [] st
  simpa [run_style, MAX_PAGES] using h

/-- The deduplication key of a raw listing link after normalization. -/
def linkKey (uj : String → String → String) (link : String) : String :=
  canonical_key (normalizeUrl uj link)

theorem fnl_go_seen_mono (uj : String → String → String) :
    ∀ links acc, acc.2 ⊆ (filter_new_links_go uj links acc).2 := by
  intro links
  induction links with
  | nil => intro acc a ha; simpa [filter_new_links_go] using ha
  | cons l rest ih =>
    intro acc
    simp only [filter_new_links_go]
    split
    · exact ih acc
    · intro a ha
      exact ih _ (List.mem_cons_of_mem _ ha)

theorem fnl_go_covers (uj : String → String → String) :
    ∀ links acc l, l ∈ links →
      linkKey uj l ∈ (filter_new_links_go uj links acc).2 := by
  intro links
  induction links with
  | nil => intro acc l hl; simp at hl
  | cons l0 rest ih =>
    intro acc l hl
    rcases List.mem_cons.mp hl with rfl | hl
    · simp only [filter_new_links_go]
      split
      · next hmem => exact fnl_go_seen_mono uj rest acc hmem
      · exact fnl_go_seen_mono uj rest _ (List.mem_cons_self _ _)
    · simp only [filter_new_links_go]
      split
      · exact ih acc l hl
      · exact ih _ l hl

theorem fnl_go_no_new (uj : String → String → String) :
    ∀ links acc, (∀ l ∈ links, linkKey uj l ∈ acc.2) →
      (filter_new_links_go uj links acc).1 = acc.1 := by
  intro links
  induction links with
  | nil => intro acc _; rfl
  | cons l0 rest ih =>
    intro acc h
    simp only [filter_new_links_go]
    split
    · exact ih acc (fun l hl => h l (List.mem_cons_of_mem _ hl))
    · next hmem => exact absurd (h l0 (List.mem_cons_self _ _)) hmem

theorem filter_new_links_seen_mono (uj : String → String → String)
    (links seen : List String) : seen ⊆ (filter_new_links uj links seen).2 :=
  fnl_go_seen_mono uj links ([], seen)

theorem filter_new_links_covers (uj : String → String → String)
    (links seen : List String) :
    ∀ l ∈ links, linkKey uj l ∈ (filter_new_links uj links seen).2 :=
  fun l hl => fnl_go_covers uj links ([], seen) l hl

theorem filter_new_links_no_new (uj : String → String → String)
    (links seen : List String) (h : ∀ l ∈ links, linkKey uj l ∈ seen) :
    (filter_new_links uj links seen).1 = [] :=
  fnl_go_no_new uj links ([], seen) h

theorem process_style_empty (uj : String → String → String)
    (fetchP : Nat → List String) (parseRes : String → Option (Product × String))
    (fileExists : String → Bool) (downloadOK : String → Bool) (folder : String)
    (n page : Nat) (seen : List String) (st : LoopState)
    (h : (fetchP page).isEmpty = true) :
    process_style uj fetchP parseRes fileExists downloadOK folder
      (n + 1) page seen st = ([(page, fetchP page, seen)], st) := by
  simp only [process_style]
  rw [if_pos h]

theorem process_style_nonew (uj : String → String → String)
    (fetchP : Nat → List String) (parseRes : String → Option (Product × String))
    (fileExists : String → Bool) (downloadOK : String → Bool) (folder : String)
    (n page : Nat) (seen : List String) (st : LoopState)
    (h1 : ¬ (fetchP page).isEmpty = true)
    (h2 : (filter_new_links uj (fetchP page) seen).1.isEmpty = true) :
    process_style uj fetchP parseRes fileExists downloadOK folder
      (n + 1) page seen st = ([(page, fetchP page, seen)], st) := by
  simp only [process_style]
  rw [if_neg h1, if_pos h2]

theorem process_style_step (uj : String → String → String)
    (fetchP : Nat → List String) (parseRes : String → Option (Product × String))
    (fileExists : String → Bool) (downloadOK : String → Bool) (folder : String)
    (n page : Nat) (seen : List String) (st : LoopState)
    (h1 : ¬ (fetchP page).isEmpty = true)
    (h2 : ¬ (filter_new_links uj (fetchP page) seen).1.isEmpty = true) :
    process_style uj fetchP parseRes fileExists downloadOK folder
      (n + 1) page seen st =
      ((page, fetchP page, seen) ::
        (process_style uj fetchP parseRes fileExists downloadOK folder n (page + 1)
          (filter_new_links uj (fetchP page) seen).2
          (process_new_links parseRes fileExists downloadOK folder
            (filter_new_links uj (fetchP page) seen).1 st)).1,
        (process_style uj fetchP parseRes fileExists downloadOK folder n (page + 1)
          (filter_new_links uj (fetchP page) seen).2
          (process_new_links parseRes fileExists downloadOK folder
            (filter_new_links uj (fetchP page) seen).1 st)).2) := by
  simp only [process_style]
  rw [if_neg h1, if_neg h2]

theorem process_style_no_refetch (uj : String → String → String)
    (fetchP : Nat → List String) (parseRes : String → Option (Product × String))
    (fileExists : String → Bool) (downloadOK : String → Bool) (folder : String)
    (N : Nat) (hfix : fetchP N = fetchP (N + 1)) :
    ∀ fuel page seen st,
      (page ≤ N ∨ (page = N + 1 ∧ ∀ l ∈ fetchP N, linkKey uj l ∈ seen)) →
      (N + 2) ∉ ((process_style uj fetchP parseRes fileExists downloadOK folder
        fuel page seen st).1).map (fun e => e.1) := by
  intro fuel
  induction fuel with
  | zero => intro page seen st _; simp [process_style]
  | succ n ih =>
    intro page seen st hp
    have hple : page ≤ N + 1 := by rcases hp with h | ⟨h, _⟩ <;> omega
    by_cases hempty : (fetchP page).isEmpty = true
    · rw [process_style_empty uj fetchP parseRes fileExists downloadOK folder
        n page seen st hempty]
      simp
      omega
    · by_cases hnew : (filter_new_links uj (fetchP page) seen).1.isEmpty = true
      · rw [process_style_nonew uj fetchP parseRes fileExists downloadOK folder
          n page seen st hempty hnew]
        simp
        omega
      · rw [process_style_step uj fetchP parseRes fileExists downloadOK folder
          n page seen st hempty hnew]
        rw [List.map_cons, List.mem_cons]
        push_neg
        constructor
        · omega
        · apply ih
          rcases hp with h | ⟨rfl, hcov⟩
          · rcases Nat.lt_or_ge page N with hlt | hge
            · exact Or.inl (by omega)
            · have hpn : page = N := by omega
              subst hpn
              exact Or.inr ⟨rfl, filter_new_links_covers uj (fetchP page) seen⟩
          · exfalso
            apply hnew
            rw [← hfix] at hnew ⊢
            rw [filter_new_links_no_new uj _ _ hcov]
            rfl

/-- Relation between consecutive fetched pages of one style's trace: a
page is followed by another only if it returned links and contributed new
keys; the seen-set grows and the page number advances by one. -/
def styleStepRel (uj : String → String → String)
    (a b : Nat × List String × List String) : Prop :=
  a.2.1 ≠ [] ∧ (filter_new_links uj a.2.1 a.2.2).1 ≠ []
    ∧ a.2.2 ⊆ b.2.2 ∧ b.1 = a.1 + 1

theorem process_style_head (uj : String → String → String)
    (fetchP : Nat → List String) (parseRes : String → Option (Product × String))
    (fileExists : String → Bool) (downloadOK : String → Bool) (folder : String) :
    ∀ fuel page seen st x,
      ((process_style uj fetchP parseRes fileExists downloadOK folder
        fuel page seen st).1).head? = some x → x = (page, fetchP page, seen) := by
  intro fuel page seen st x hx
  cases fuel with
  | zero => simp [process_style] at hx
  | succ n =>
    by_cases hempty : (fetchP page).isEmpty = true
    · rw [process_style_empty uj fetchP parseRes fileExists downloadOK folder
        n page seen st hempty] at hx
      simp at hx
      exact hx.symm
    · by_cases hnew : (filter_new_links uj (fetchP page) seen).1.isEmpty = true
      · rw [process_style_nonew uj fetchP parseRes fileExists downloadOK folder
          n page seen st hempty hnew] at hx
        simp at hx
        exact hx.symm
      · rw [process_style_step uj fetchP parseRes fileExists downloadOK folder
          n page seen st hempty hnew] at hx
        simp at hx
        exact hx.symm

theorem process_style_chain (uj : String → String → String)
    (fetchP : Nat → List String) (parseRes : String → Option (Product × String))
    (fileExists : String → Bool) (downloadOK : String → Bool) (folder : String) :
    ∀ fuel page seen st,
      List.Chain' (styleStepRel uj)
        ((process_style uj fetchP parseRes fileExists downloadOK folder
          fuel page seen st).1) := by
  intro fuel
  induction fuel with
  | zero => intro page seen st; simp [process_style]
  | succ n ih =>
    intro page seen st
    by_cases hempty : (fetchP page).isEmpty = true
    · rw [process_style_empty uj fetchP parseRes fileExists downloadOK folder
        n page seen st hempty]
      simp
    · by_cases hnew : (filter_new_links uj (fetchP page) seen).1.isEmpty = true
      · rw [process_style_nonew uj fetchP parseRes fileExists downloadOK folder
          n page seen st hempty hnew]
        simp
      · rw [process_style_step uj fetchP parseRes fileExists downloadOK folder
          n page seen st hempty hnew]
        rw [List.chain'_cons']
        refine ⟨?_, ih _ _ _⟩
        intro y hy
        have hy2 := process_style_head uj fetchP parseRes fileExists downloadOK folder
          n (page + 1) (filter_new_links uj (fetchP page) seen).2
          (process_new_links parseRes fileExists downloadOK folder
            (filter_new_links uj (fetchP page) seen).1 st) y hy
        subst hy2
        refine ⟨?_, ?_, ?_, rfl⟩
        · simpa [List.isEmpty_iff] using hempty
        · simpa [List.isEmpty_iff] using hnew
        · exact filter_new_links_seen_mono uj (fetchP page) seen

/-- C8: if listing pages `N` and `N+1` of a style return an identical
non-empty link list, the pagination loop never fetches page `N+2`;
moreover the seen-set only grows (both at the single filtering step and
along the trace), and a fetched page is followed by another only when it
returned links and contributed at least one new key (zero links or zero
new keys stop the style's pagination). -/
theorem c8_pagination_termination (uj : String → String → String)
    (fetchP : Nat → List String) (parseRes : String → Option (Product × String))
    (fileExists : String → Bool) (downloadOK : String → Bool) (folder : String)
    (st : LoopState) (N : Nat) (h1 : 1 ≤ N) (h2 : fetchP N = fetchP (N + 1))
    (h3 : fetchP N ≠ []) :
    ((N + 2) ∉ ((run_style uj fetchP parseRes fileExists downloadOK folder
        st).1).map (fun e => e.1))
    ∧ (∀ links seen, seen ⊆ (filter_new_links uj links seen).2)
    ∧ List.Chain' (styleStepRel uj)
        ((run_style uj fetchP parseRes fileExists downloadOK folder st).1) := by
  refine ⟨?_, ?_, ?_⟩
  · exact process_style_no_refetch uj fetchP parseRes fileExists downloadOK folder
      N h2 MAX_PAGES 1 [] st (Or.inl h1)
  · exact fun links seen => filter_new_links_seen_mono uj links seen
  · exact process_style_chain uj fetchP parseRes fileExists downloadOK folder
      MAX_PAGES 1 [] st

theorem c8_witness :
    (1 ≤ 1
      ∧ (fun _ : Nat => ["/p/a"]) 1 = (fun _ : Nat => ["/p/a"]) (1 + 1)
      ∧ (fun _ : Nat => ["/p/a"]) 1 ≠ [])
    ∧ ((1 + 2) ∉ ((run_style (fun _ l => l) (fun _ => ["/p/a"])
        (fun _ => none) (fun _ => false) (fun _ => false) "o"
        { collected := [], written := [], downloads := [] }).1).map (fun e => e.1)) :=
  ⟨⟨by decide, rfl, by decide⟩,
    (c8_pagination_termination (fun _ l => l) (fun _ => ["/p/a"])
      (fun _ => none) (fun _ => false) (fun _ => false) "o"
      { collected := [], written := [], downloads := [] } 1
      (by decide) rfl (by decide)).1⟩

theorem alookup_append_some {k : String} {l1 l2 : List (String × Product)} {p : Product}
    (h : alookup k l1 = some p) : alookup k (l1 ++ l2) = some p := by
  induction l1 with
  | nil => simp [alookup] at h
  | cons kv rest ih =>
    rw [List.cons_append]
    rw [alookup] at h ⊢
    split at h
    · next heq => rw [if_pos heq]; exact h
    · next heq => rw [if_neg heq]; exact ih h

theorem alookup_none_iff {k : String} {l : List (String × Product)} :
    alookup k l = none ↔ k ∉ l.map Prod.fst := by
  induction l with
  | nil => simp [alookup]
  | cons kv rest ih =>
    rw [alookup]
    by_cases h : kv.1 = k
    · simp [h]
    · simp only [if_neg h, ih, List.map_cons, List.mem_cons]
      constructor
      · intro hn hk
        rcases hk with hk | hk
        · exact h hk.symm
        · exact hn hk
      · intro hn
        exact fun hk => hn (Or.inr hk)

theorem alookup_append_single_ne {k k' : String} {l : List (String × Product)}
    {p : Product} (h : k' ≠ k) :
    alookup k (l ++ [(k', p)]) = alookup k l := by
  induction l with
  | nil => simp [alookup, h]
  | cons kv rest ih =>
    rw [List.cons_append, alookup, alookup]
    split
    · rfl
    · exact ih

theorem pnl_lookup_mono (parseRes : String → Option (Product × String))
    (fileExists : String → Bool) (downloadOK : String → Bool) (folder : String) :
    ∀ links st k p, alookup k st.collected = some p →
      alookup k ((process_new_links parseRes fileExists downloadOK folder
        links st).collected) = some p := by
  intro links
  induction links with
  | nil => intro st k p h; exact h
  | cons full rest ih =>
    intro st k p h
    rw [process_new_links]
    split
    · exact ih st k p h
    · split
      · exact ih st k p h
      · exact ih _ k p (alookup_append_some h)

theorem nodup_keys_append_single {l : List (String × Product)} {k : String} {p : Product}
    (hn : (l.map Prod.fst).Nodup) (hk : k ∉ l.map Prod.fst) :
    ((l ++ [(k, p)]).map Prod.fst).Nodup := by
  rw [List.map_append]
  simp only [List.map_cons, List.map_nil]
  rw [List.nodup_append]
  refine ⟨hn, List.nodup_singleton k, ?_⟩
  intro a ha hb
  simp at hb
  subst hb
  exact hk ha

theorem pnl_nodup (parseRes : String → Option (Product × String))
    (fileExists : String → Bool) (downloadOK : String → Bool) (folder : String) :
    ∀ links st, (st.collected.map Prod.fst).Nodup →
      (((process_new_links parseRes fileExists downloadOK folder
        links st).collected).map Prod.fst).Nodup := by
  intro links
  induction links with
  | nil => intro st h; exact h
  | cons full rest ih =>
    intro st h
    rw [process_new_links]
    split
    · exact ih st h
    · next habs =>
      have habsn : alookup (canonical_key full) st.collected = none := by
        cases hno : alookup (canonical_key full) st.collected with
        | none => rfl
        | some v => rw [hno] at habs; simp at habs
      have hk : canonical_key full ∉ st.collected.map Prod.fst :=
        alookup_none_iff.mp habsn
      split
      · exact ih st h
      · exact ih _ (nodup_keys_append_single h hk)

theorem ps_lookup_mono (uj : String → String → String)
    (fetchP : Nat → List String) (parseRes : String → Option (Product × String))
    (fileExists : String → Bool) (downloadOK : String → Bool) (folder : String) :
    ∀ fuel page seen st k p, alookup k st.collected = some p →
      alookup k (((process_style uj fetchP parseRes fileExists downloadOK folder
        fuel page seen st).2).collected) = some p := by
  intro fuel
  induction fuel with
  | zero => intro page seen st k p h; exact h
  | succ n ih =>
    intro page seen st k p h
    by_cases hempty : (fetchP page).isEmpty = true
    · rw [process_style_empty uj fetchP parseRes fileExists downloadOK folder
        n page seen st hempty]
      exact h
    · by_cases hnew : (filter_new_links uj (fetchP page) seen).1.isEmpty = true
      · rw [process_style_nonew uj fetchP parseRes fileExists downloadOK folder
          n page seen st hempty hnew]
        exact h
      · rw [process_style_step uj fetchP parseRes fileExists downloadOK folder
          n page seen st hempty hnew]
        exact ih _ _ _ k p
          (pnl_lookup_mono parseRes fileExists downloadOK folder _ st k p h)

theorem ps_nodup (uj : String → String → String)
    (fetchP : Nat → List String) (parseRes : String → Option (Product × String))
    (fileExists : String → Bool) (downloadOK : String → Bool) (folder : String) :
    ∀ fuel page seen st, (st.collected.map Prod.fst).Nodup →
      ((((process_style uj fetchP parseRes fileExists downloadOK folder
        fuel page seen st).2).collected).map Prod.fst).Nodup := by
  intro fuel
  induction fuel with
  | zero => intro page seen st h; exact h
  | succ n ih =>
    intro page seen st h
    by_cases hempty : (fetchP page).isEmpty = true
    · rw [process_style_empty uj fetchP parseRes fileExists downloadOK folder
        n page seen st hempty]
      exact h
    · by_cases hnew : (filter_new_links uj (fetchP page) seen).1.isEmpty = true
      · rw [process_style_nonew uj fetchP parseRes fileExists downloadOK folder
          n page seen st hempty hnew]
        exact h
      · rw [process_style_step uj fetchP parseRes fileExists downloadOK folder
          n page seen st hempty hnew]
        exact ih _ _ _ (pnl_nodup parseRes fileExists downloadOK folder _ st h)

theorem pstyles_lookup_mono (uj : String → String → String)
    (fetch : String → Nat → List String)
    (parseRes : String → Option (Product × String))
    (fileExists : String → Bool) (downloadOK : String → Bool) (folder : String) :
    ∀ styles st k p, alookup k st.collected = some p →
      alookup k ((process_styles uj fetch parseRes fileExists downloadOK folder
        styles st).collected) = some p := by
  intro styles
  induction styles with
  | nil => intro st k p h; exact h
  | cons style rest ih =>
    intro st k p h
    rw [process_styles]
    exact ih _ k p (ps_lookup_mono uj (fetch style) parseRes fileExists downloadOK
      folder MAX_PAGES 1 [] st k p h)

theorem pstyles_nodup (uj : String → String → String)
    (fetch : String → Nat → List String)
    (parseRes : String → Option (Product × String))
    (fileExists : String → Bool) (downloadOK : String → Bool) (folder : String) :
    ∀ styles st, (st.collected.map Prod.fst).Nodup →
      (((process_styles uj fetch parseRes fileExists downloadOK folder
        styles st).collected).map Prod.fst).Nodup := by
  intro styles
  induction styles with
  | nil => intro st h; exact h
  | cons style rest ih =>
    intro st h
    rw [process_styles]
    exact ih _ (ps_nodup uj (fetch style) parseRes fileExists downloadOK
      folder MAX_PAGES 1 [] st h)

/-- C10: an insert into the category catalog happens only for absent
keys, so along the whole crawl the catalog's keys stay duplicate-free and
a key's value, once stored, is preserved by every later step (the link
loop, a style's pagination loop, and the remaining styles of the
category); in particular the finished category catalog has pairwise
distinct keys. -/
theorem c10_catalog_first_writer_wins (uj : String → String → String)
    (fetch : String → Nat → List String)
    (parseRes : String → Option (Product × String))
    (fileExists : String → Bool) (downloadOK : String → Bool) (folder : String) :
    (∀ links st k p, alookup k st.collected = some p →
      alookup k ((process_new_links parseRes fileExists downloadOK folder
        links st).collected) = some p)
    ∧ (∀ links st, (st.collected.map Prod.fst).Nodup →
      (((process_new_links parseRes fileExists downloadOK folder
        links st).collected).map Prod.fst).Nodup)
    ∧ (∀ styles st k p, alookup k st.collected = some p →
      alookup k ((process_styles uj fetch parseRes fileExists downloadOK folder
        styles st).collected) = some p)
    ∧ ((process_category uj fetch parseRes fileExists downloadOK
        folder).map Prod.fst).Nodup := by
  refine ⟨?_, ?_, ?_, ?_⟩
  · exact pnl_lookup_mono parseRes fileExists downloadOK folder
  · exact pnl_nodup parseRes fileExists downloadOK folder
  · exact pstyles_lookup_mono uj fetch parseRes fileExists downloadOK folder
  · exact pstyles_nodup uj fetch parseRes fileExists downloadOK folder
      STYLE_CODES { collected := [], written := [], downloads := [] }
      (by simp)

/-- A concrete product used by witnesses and counterexamples. -/
def prodA : Product :=
  { id := "a", name := "a", price := none, description := "", image := "x.jpg" }

/-- Another concrete product used by witnesses and counterexamples. -/
def prodB : Product :=
  { id := "b", name := "b", price := none, description := "", image := "y.jpg" }

/-- A parse oracle returning `prodB` for every product page. -/
def parseAllB : String → Option (Product × String) := fun u => some (prodB, u)

/-- A loop state already holding `prodA` under the key `https:`. -/
def stateWithA : LoopState :=
  { collected := [("https:", prodA)], written := [], downloads := [] }

theorem c10_witness :
    alookup "https:" stateWithA.collected = some prodA
    ∧ alookup "https:"
        ((process_new_links parseAllB (fun _ => false) (fun _ => false) "o"
          ["https://ex.com/p"] stateWithA).collected) = some prodA :=
  ⟨by decide,
    (c10_catalog_first_writer_wins (fun _ l => l) (fun _ _ => []) parseAllB
      (fun _ => false) (fun _ => false) "o").1
      ["https://ex.com/p"] stateWithA "https:" prodA (by decide)⟩

theorem c6_witness :
    ((∀ c ∈ ("img" : String).data, c ≠ '?')
      ∧ sanitize_filename ("img" ++ "/" ++ "a b.png?x=1") = sanitize_filename "a b.png?x=1")
    ∧ sanitize_filename (sanitize_filename "https://cdn.x.com/a b/c?d=1")
        = sanitize_filename "https://cdn.x.com/a b/c?d=1" :=
  ⟨⟨by decide, c6_sanitize_filename_spec.1 "img" "a b.png?x=1" (by decide)⟩,
    c6_sanitize_filename_spec.2.2.2 "https://cdn.x.com/a b/c?d=1"⟩

/-- A fetch oracle whose single non-empty listing page mixes an `http`
and an `https` product link. -/
def mixedSchemeFetch : String → Nat → List String := fun style page =>
  if style = "s8" && page = 1 then ["http://ex.com/a", "https://ex.com/b"] else []

/-- C2 counterexample: with one listing page returning an `http://` link
and an `https://` link, the two normalized URLs get the distinct keys
`http:` and `https:`, and the finished category catalog holds two
products — refuting both "every product link of a crawl maps to the same
key" and "the collected mapping contains at most one Product". -/
theorem c2_counterexample :
    ((process_category (fun _ l => l) mixedSchemeFetch parseAllB
        (fun _ => false) (fun _ => false) "o").map Prod.fst = ["http:", "https:"])
    ∧ ¬ ((process_category (fun _ l => l) mixedSchemeFetch parseAllB
        (fun _ => false) (fun _ => false) "o").length ≤ 1) :=
  ⟨by decide, by decide⟩

theorem stripFromSep_eq_takeWhile {l : List Char} (h : noNewline l = true) :
    stripFromSep l = l.takeWhile (fun c => !isSepChar c) := by
  induction l with
  | nil => rfl
  | cons c rest ih =>
    have hrest : noNewline rest = true := by
      simp only [noNewline, List.all_cons, Bool.and_eq_true] at h
      exact h.2
    rw [stripFromSep, List.takeWhile_cons]
    by_cases hc : isSepChar c = true
    · rw [if_pos hc]
      have : dollarMatchTail rest = some [] := by
        simp [dollarMatchTail, hrest]
      rw [this]
      simp [hc]
    · rw [if_neg hc]
      simp only [Bool.not_eq_true] at hc
      simp [hc, ih hrest]

theorem fnl_go_new_https (uj : String → String → String) :
    ∀ links acc, (∀ l ∈ links, linkKey uj l = "https:") →
      (∀ full ∈ acc.1, canonical_key full = "https:") →
      ∀ full ∈ (filter_new_links_go uj links acc).1, canonical_key full = "https:" := by
  intro links
  induction links with
  | nil => intro acc _ hacc full hf; exact hacc full hf
  | cons l0 rest ih =>
    intro acc h hacc full hf
    rw [filter_new_links_go] at hf
    split at hf
    · exact ih acc (fun l hl => h l (List.mem_cons_of_mem _ hl)) hacc full hf
    · refine ih _ (fun l hl => h l (List.mem_cons_of_mem _ hl)) ?_ full hf
      intro u hu
      rcases List.mem_append.mp hu with hu | hu
      · exact hacc u hu
      · simp at hu
        subst hu
        exact h l0 (List.mem_cons_self _ _)

theorem pnl_keys_https (parseRes : String → Option (Product × String))
    (fileExists : String → Bool) (downloadOK : String → Bool) (folder : String) :
    ∀ links st, (∀ full ∈ links, canonical_key full = "https:") →
      (∀ k ∈ st.collected.map Prod.fst, k = "https:") →
      ∀ k ∈ ((process_new_links parseRes fileExists downloadOK folder
        links st).collected).map Prod.fst, k = "https:" := by
  intro links
  induction links with
  | nil => intro st _ hst k hk; exact hst k hk
  | cons full rest ih =>
    intro st h hst k hk
    rw [process_new_links] at hk
    split at hk
    · exact ih st (fun u hu => h u (List.mem_cons_of_mem _ hu)) hst k hk
    · split at hk
      · exact ih st (fun u hu => h u (List.mem_cons_of_mem _ hu)) hst k hk
      · refine ih _ (fun u hu => h u (List.mem_cons_of_mem _ hu)) ?_ k hk
        intro k' hk'
        simp only [List.map_append, List.map_cons, List.map_nil,
          List.mem_append, List.mem_cons, List.not_mem_nil, or_false] at hk'
        rcases hk' with hk' | hk'
        · exact hst k' hk'
        · subst hk'
          exact h full (List.mem_cons_self _ _)

theorem ps_keys_https (uj : String → String → String)
    (fetchP : Nat → List String) (parseRes : String → Option (Product × String))
    (fileExists : String → Bool) (downloadOK : String → Bool) (folder : String)
    (hf : ∀ page l, l ∈ fetchP page → linkKey uj l = "https:") :
    ∀ fuel page seen st, (∀ k ∈ st.collected.map Prod.fst, k = "https:") →
      ∀ k ∈ (((process_style uj fetchP parseRes fileExists downloadOK folder
        fuel page seen st).2).collected).map Prod.fst, k = "https:" := by
  intro fuel
  induction fuel with
  | zero => intro page seen st hst k hk; exact hst k hk
  | succ n ih =>
    intro page seen st hst k hk
    by_cases hempty : (fetchP page).isEmpty = true
    · rw [process_style_empty uj fetchP parseRes fileExists downloadOK folder
        n page seen st hempty] at hk
      exact hst k hk
    · by_cases hnew : (filter_new_links uj (fetchP page) seen).1.isEmpty = true
      · rw [process_style_nonew uj fetchP parseRes fileExists downloadOK folder
          n page seen st hempty hnew] at hk
        exact hst k hk
      · rw [process_style_step uj fetchP parseRes fileExists downloadOK folder
          n page seen st hempty hnew] at hk
        refine ih _ _ _ ?_ k hk
        apply pnl_keys_https parseRes fileExists downloadOK folder _ st ?_ hst
        exact fnl_go_new_https uj (fetchP page) ([], seen)
          (fun l hl => hf page l hl) (by intro u hu; simp at hu)

theorem pstyles_keys_https (uj : String → String → String)
    (fetch : String → Nat → List String)
    (parseRes : String → Option (Product × String))
    (fileExists : String → Bool) (downloadOK : String → Bool) (folder : String)
    (hf : ∀ style page l, l ∈ fetch style page → linkKey uj l = "https:") :
    ∀ styles st, (∀ k ∈ st.collected.map Prod.fst, k = "https:") →
      ∀ k ∈ ((process_styles uj fetch parseRes fileExists downloadOK folder
        styles st).collected).map Prod.fst, k = "https:" := by
  intro styles
  induction styles with
  | nil => intro st hst k hk; exact hst k hk
  | cons style rest ih =>
    intro st hst k hk
    rw [process_styles] at hk
    refine ih _ ?_ k hk
    exact ps_keys_https uj (fetch style) parseRes fileExists downloadOK folder
      (fun page l hl => hf style page l hl) MAX_PAGES 1 [] st hst

theorem nodup_const_length_le_one {l : List String} {x : String}
    (hn : l.Nodup) (h : ∀ a ∈ l, a = x) : l.length ≤ 1 := by
  cases l with
  | nil => simp
  | cons a rest =>
    cases rest with
    | nil => simp
    | cons b rest2 =>
      exfalso
      have ha := h a (by simp)
      have hb := h b (by simp)
      subst ha
      rw [hb] at hn
      simp at hn

/-- C2 amended: the deduplication key of a newline-free URL is its prefix
strictly before the first `/`, `?` or `#`; for an absolute URL beginning
`https://` that prefix is the bare scheme `https:`.  Consequently all
product links of one crawl that share a scheme map to one key, and when
every discovered link normalizes to an `https://` URL the category's
collected mapping holds at most one Product — but links of distinct
schemes (see the counterexample) receive distinct keys. -/
theorem c2_scheme_prefix_key (uj : String → String → String)
    (fetch : String → Nat → List String)
    (parseRes : String → Option (Product × String))
    (fileExists : String → Bool) (downloadOK : String → Bool) (folder : String) :
    (∀ url : String, noNewline url.data = true →
      canonical_key url = ⟨url.data.takeWhile (fun c => !isSepChar c)⟩)
    ∧ (∀ (url : String) (t : List Char),
        url.data = 'h' :: 't' :: 't' :: 'p' :: 's' :: ':' :: '/' :: '/' :: t →
        noNewline t = true → canonical_key url = "https:")
    ∧ ((∀ style page l, l ∈ fetch style page → linkKey uj l = "https:") →
        (process_category uj fetch parseRes fileExists downloadOK
          folder).length ≤ 1) := by
  refine ⟨?_, ?_, ?_⟩
  · intro url h
    rw [canonical_key, stripFromSep_eq_takeWhile h]
  · intro url t hdata ht
    have hn : noNewline url.data = true := by
      rw [hdata]
      simpa [noNewline] using ht
    rw [canonical_key, stripFromSep_eq_takeWhile hn, hdata]
    rfl
  · intro hf
    have hkeys : ∀ k ∈ (process_category uj fetch parseRes fileExists downloadOK
        folder).map Prod.fst, k = "https:" := by
      intro k hk
      exact pstyles_keys_https uj fetch parseRes fileExists downloadOK folder hf
        STYLE_CODES { collected := [], written := [], downloads := [] }
        (by intro k' hk'; simp at hk') k hk
    have hnodup : ((process_category uj fetch parseRes fileExists downloadOK
        folder).map Prod.fst).Nodup :=
      pstyles_nodup uj fetch parseRes fileExists downloadOK folder
        STYLE_CODES { collected := [], written := [], downloads := [] } (by simp)
    have := nodup_const_length_le_one hnodup hkeys
    simpa using this

theorem c2_witness :
    ((∀ style page l, l ∈ (fun (_ : String) (_ : Nat) => ["https://ex.com/a"]) style page →
        linkKey (fun _ l => l) l = "https:")
      ∧ canonical_key "https://ex.com/a" = "https:")
    ∧ (process_category (fun _ l => l) (fun _ _ => ["https://ex.com/a"]) parseAllB
        (fun _ => false) (fun _ => false) "o").length ≤ 1 :=
  ⟨⟨by intro style page l hl; simp at hl; subst hl; decide, by decide⟩,
    (c2_scheme_prefix_key (fun _ l => l) (fun _ _ => ["https://ex.com/a"]) parseAllB
      (fun _ => false) (fun _ => false) "o").2.2
      (by intro style page l hl; simp at hl; subst hl; decide)⟩

/-- The initial loop state of a category crawl. -/
def initState : LoopState := { collected := [], written := [], downloads := [] }

/-- A concrete parsed product carrying the image filename `sb30.jpg`. -/
def sbProduct : Product :=
  { id := "S8/SB30", name := "S8/SB30", price := none, description := "",
    image := "sb30.jpg" }

/-- A parse oracle returning `sbProduct` for every product page. -/
def parseSB : String → Option (Product × String) := fun _ =>
  some (sbProduct, "https://img.ex.com/sb30.jpg")

/-- C3 counterexample: a product whose image download fails (the download
oracle always fails, covering transport errors and non-2xx statuses) is
still inserted into the catalog, but its `image` field keeps the
sanitized filename `sb30.jpg` — it is not the empty string the claim
asserts is retained. -/
theorem c3_counterexample :
    ((process_new_links parseSB (fun _ => false) (fun _ => false) "out"
        ["https://site/p/sb30"] initState).downloads
      = [("out/sb30.jpg", false)])
    ∧ (((process_new_links parseSB (fun _ => false) (fun _ => false) "out"
        ["https://site/p/sb30"] initState).collected).map
          (fun kv => kv.2.image) = ["sb30.jpg"])
    ∧ ("sb30.jpg" : String) ≠ "" :=
  ⟨by decide, by decide, by decide⟩

theorem alookup_append_self {k : String} {l : List (String × Product)} {p : Product}
    (h : alookup k l = none) : alookup k (l ++ [(k, p)]) = some p := by
  induction l with
  | nil => simp [alookup]
  | cons kv rest ih =>
    rw [List.cons_append, alookup]
    rw [alookup] at h
    split at h
    · exact absurd h (by simp)
    · next hne =>
      rw [if_neg hne]
      exact ih h

theorem pnl_collected_indep (parseRes : String → Option (Product × String))
    (fileExists fileExists' : String → Bool) (downloadOK downloadOK' : String → Bool)
    (folder : String) :
    ∀ links (st st' : LoopState), st.collected = st'.collected →
      (process_new_links parseRes fileExists downloadOK folder links st).collected
        = (process_new_links parseRes fileExists' downloadOK' folder
            links st').collected := by
  intro links
  induction links with
  | nil => intro st st' h; exact h
  | cons full rest ih =>
    intro st st' h
    rw [process_new_links, process_new_links, h]
    split
    · exact ih st st' h
    · split
      · exact ih st st' h
      · apply ih
        simp [h]

/-- C3 amended: a failed image download is ignored by the orchestrator —
the category catalog is completely independent of the download and
file-existence oracles, the crawl continues, and the Product inserted
under a fresh key is exactly the parsed product, so its `image` field
keeps the filename derived from the resolved image URL (it is not reset
to an empty string). -/
theorem c3_download_failure_keeps_product
    (parseRes : String → Option (Product × String))
    (fileExists fileExists' : String → Bool)
    (downloadOK downloadOK' : String → Bool) (folder : String) :
    (∀ links st,
      (process_new_links parseRes fileExists downloadOK folder links st).collected
        = (process_new_links parseRes fileExists' downloadOK' folder
            links st).collected)
    ∧ (∀ full st product img_url,
        alookup (canonical_key full) st.collected = none →
        parseRes full = some (product, img_url) →
        alookup (canonical_key full)
          ((process_new_links parseRes fileExists downloadOK folder
            [full] st).collected) = some product) := by
  constructor
  · intro links st
    exact pnl_collected_indep parseRes fileExists fileExists' downloadOK downloadOK'
      folder links st st rfl
  · intro full st product img_url habs hp
    rw [process_new_links, habs, hp]
    simp only [Option.isSome_none, Bool.false_eq_true, if_false]
    rw [process_new_links]
    exact alookup_append_self habs

theorem c3_witness :
    (alookup (canonical_key "https://site/p/sb30") initState.collected = none
      ∧ parseSB "https://site/p/sb30"
          = some (sbProduct, "https://img.ex.com/sb30.jpg"))
    ∧ alookup (canonical_key "https://site/p/sb30")
        ((process_new_links parseSB (fun _ => false) (fun _ => false) "out"
          ["https://site/p/sb30"] initState).collected) = some sbProduct :=
  ⟨⟨by decide, rfl⟩,
    (c3_download_failure_keeps_product parseSB (fun _ => false) (fun _ => false)
      (fun _ => false) (fun _ => false) "out").2 "https://site/p/sb30" initState
      sbProduct "https://img.ex.com/sb30.jpg" (by decide) rfl⟩

theorem jsonStrategy_malformed :
    ∀ scripts, (∀ s ∈ scripts, s = none ∨ s = some (Except.error ())) →
      jsonStrategy scripts = [] := by
  intro scripts h
  induction scripts with
  | nil => rfl
  | cons s rest ih =>
    rcases h s (List.mem_cons_self _ _) with rfl | rfl
    · have := ih (fun s hs => h s (List.mem_cons_of_mem _ hs))
      simpa [jsonStrategy, jsonLoop] using this
    · simp [jsonStrategy, jsonLoop]

/-- C7: the extractor's strategies are tried in fixed priority order.  If
the structured-data (script `data-events` JSON) strategy yields at least
one URL, its result is used exclusively: the output is the same for any
page with the same scripts, whatever its markup.  If it yields none, the
first selector in the fixed list matching at least one element supplies
the links; only when no selector matches anything are links taken from
anchors inside `product`-class elements.  Pages whose every structured
payload is absent or malformed never raise — they simply fall through to
the markup strategies. -/
theorem c7_link_extraction_strategy_order (pg : ListingPage) :
    (jsonStrategy pg.scripts ≠ [] →
      ∀ pg' : ListingPage, pg'.scripts = pg.scripts →
        parse_collection_page pg' = jsonStrategy pg.scripts)
    ∧ (jsonStrategy pg.scripts = [] →
        parse_collection_page pg = htmlFallback pg)
    ∧ (∀ cards, (selectorCards pg).find? (fun c => !c.isEmpty) = some cards →
        htmlFallback pg = cards.foldl (fun acc card =>
          match cardUrl card with
          | some u => acc ++ [u]
          | none => acc) [])
    ∧ ((selectorCards pg).find? (fun c => !c.isEmpty) = none →
        htmlFallback pg = genericUrls pg.productClassAnchors)
    ∧ ((∀ s ∈ pg.scripts, s = none ∨ s = some (Except.error ())) →
        parse_collection_page pg = htmlFallback pg) := by
  refine ⟨?_, ?_, ?_, ?_, ?_⟩
  · intro h pg' hs
    have hne : (jsonStrategy pg.scripts).isEmpty = false := by
      cases hj : jsonStrategy pg.scripts with
      | nil => exact absurd hj h
      | cons a l => rfl
    rw [parse_collection_page, hs, hne]
    rfl
  · intro h
    rw [parse_collection_page, h]
    rfl
  · intro cards hc
    rw [htmlFallback, hc]
  · intro hc
    rw [htmlFallback, hc]
  · intro h
    rw [parse_collection_page, jsonStrategy_malformed pg.scripts h]
    rfl

/-- A well-formed `collection_viewed` payload carrying one product URL. -/
def sampleCollectionJson : Json :=
  Json.arr [Json.arr [Json.str "collection_viewed",
    Json.obj [("collection", Json.obj [("productVariants",
      Json.arr [Json.obj [("product", Json.obj [("url", Json.str " /p/a ")])]])])]]]

/-- A listing page with a good structured payload and no markup. -/
def c7page : ListingPage :=
  { scripts := [some (Except.ok sampleCollectionJson)], gridItemDivs := [],
    productCardDivs := [], gridItemLis := [], productCardLis := [],
    productClassAnchors := [] }

/-- The same scripts, but with markup matching the selector list. -/
def c7pageMarkup : ListingPage :=
  { scripts := [some (Except.ok sampleCollectionJson)],
    gridItemDivs := [some "/other", none], productCardDivs := [some "/other2"],
    gridItemLis := [], productCardLis := [],
    productClassAnchors := [some "/other3"] }

theorem c7_witness :
    (jsonStrategy c7page.scripts ≠ [] ∧ c7pageMarkup.scripts = c7page.scripts)
    ∧ parse_collection_page c7pageMarkup = jsonStrategy c7page.scripts :=
  ⟨⟨by decide, rfl⟩,
    (c7_link_extraction_strategy_order c7page).1 (by decide) c7pageMarkup rfl⟩

/-- A product page with no `og:image` whose first `img[src]` has an empty
`src`, while a later `img` carries a usable one. -/
def emptyFirstImgPage : ProductPage :=
  { h1Text := some "S8/SB30 Sink Base", priceText := none, descTexts := [],
    metaDesc := none, ogImage := none, imgSrcs := ["", "pic.jpg"] }

/-- C4 counterexample: the parser consults only the *first* `img` element
carrying a `src` attribute (`soup.find("img", src=True)`); on a page
whose first such `img` has an empty `src`, it returns "no result" even
though another `img` element with a non-empty `src` exists — refuting
"returns no result only when no img element with a src exists". -/
theorem c4_counterexample :
    parse_product_page emptyFirstImgPage = none
    ∧ emptyFirstImgPage.ogImage = none
    ∧ "pic.jpg" ∈ emptyFirstImgPage.imgSrcs
    ∧ ("pic.jpg" : String) ≠ "" :=
  ⟨by decide, rfl, by decide, by decide⟩

/-- Modelled from the spec (§4.3): title is the first `h1`'s text, else
empty. -/
def specTitle (pg : ProductPage) : String :=
  match pg.h1Text with | some t => t | none => ""

/-- Modelled from the spec (§4.3): id is the first `<alnum>+/<alnum>+`
match inside the title, else the full title. -/
def specId (pg : ProductPage) : String :=
  match findIdMatch (specTitle pg).data with
  | some m => ⟨m⟩
  | none => specTitle pg

/-- Modelled from the spec (§4.3): price from the first `price`-class
element's text, keeping digits and dots; absent when empty/unparsable. -/
def specPrice (pg : ProductPage) : Option ℚ :=
  match pg.priceText with
  | none => none
  | some ptext =>
    let cleaned := ptext.data.filter (fun c => c.isDigit || c == '.')
    if !cleaned.isEmpty then pyFloatOfCleaned cleaned else none

/-- Modelled from the spec (§4.3): description from the first matched
description container, else the meta description, else empty. -/
def specDesc (pg : ProductPage) : String :=
  let desc0 : String :=
    match pg.descTexts.findSome? id with
    | some t => t
    | none => ""
  if desc0 = "" then
    match pg.metaDesc with
    | some contentAttr => pyStrip (match contentAttr with | some c => c | none => "")
    | none => desc0
  else desc0

/-- Modelled from the spec (§4.1/4.3): local filename — sanitize the
high-resolution URL, then strip a resolution suffix once more. -/
def specImageFilename (pg : ProductPage) : String :=
  ⟨scanStripRes (sanitize_filename (strip_resolution_suffix
    (selectedImageRef pg))).data⟩

/-- Modelled from the spec (§4.3): the Product a successful parse yields. -/
def specProduct (pg : ProductPage) : Product :=
  { id := specId pg, name := specTitle pg, price := specPrice pg,
    description := specDesc pg, image := specImageFilename pg }

/-- C4 amended: `parse_product_page` returns "no result" exactly when its
candidate image reference — the `og:image` content when that tag exists
with a truthy `content`, else the `src` of the *first* `img` carrying a
`src` attribute — is empty after stripping whitespace; whenever that
reference is non-empty a result is produced whose fields are the
independent per-field extractions (title, id, price, description each
degrade to their defaults and can never abort the parse), paired with the
suffix-stripped high-resolution URL. -/
theorem c4_parse_product_page_image_gate (pg : ProductPage) :
    (parse_product_page pg = none ↔ selectedImageRef pg = "")
    ∧ (selectedImageRef pg ≠ "" →
        parse_product_page pg
          = some (specProduct pg, strip_resolution_suffix (selectedImageRef pg))) := by
  have hworked : parse_product_page pg =
      (if selectedImageRef pg = "" then none
       else some (specProduct pg, strip_resolution_suffix (selectedImageRef pg))) := rfl
  constructor
  · rw [hworked]
    by_cases h : selectedImageRef pg = ""
    · simp [h]
    · simp [h]
  · intro h
    rw [hworked, if_neg h]

/-- A product page whose only content is an `og:image` URL. -/
def ogOnlyPage : ProductPage :=
  { h1Text := none, priceText := none, descTexts := [], metaDesc := none,
    ogImage := some (some "http://img.ex.com/x_352x192.png"), imgSrcs := [] }

theorem c4_witness :
    selectedImageRef ogOnlyPage ≠ ""
    ∧ parse_product_page ogOnlyPage
        = some (specProduct ogOnlyPage,
            strip_resolution_suffix (selectedImageRef ogOnlyPage)) :=
  ⟨by decide, (c4_parse_product_page_image_gate ogOnlyPage).2 (by decide)⟩

theorem tryKs_mem {f : Nat → Option Nat} :
    ∀ {ks : List Nat} {r : Nat}, tryKs f ks = some r → ∃ k ∈ ks, f k = some r := by
  intro ks
  induction ks with
  | nil => intro r h; simp [tryKs] at h
  | cons k rest ih =>
    intro r h
    rw [tryKs] at h
    cases hk : f k with
    | some v =>
      rw [hk] at h
      exact ⟨k, by simp, by rw [hk, ← h]⟩
    | none =>
      rw [hk] at h
      rcases ih h with ⟨k', hk', hf⟩
      exact ⟨k', by simp [hk'], hf⟩

theorem tryD2_shape {r2 : List Char} {k2 : Nat} (h : tryD2 r2 = some k2) :
    2 ≤ k2 ∧ k2 ≤ 5 ∧ (r2.take k2).length = k2
      ∧ (r2.take k2).all Char.isDigit = true
      ∧ extLookahead (r2.drop k2) = true := by
  rcases tryKs_mem h with ⟨k, hk, hf⟩
  have hkv : k = 5 ∨ k = 4 ∨ k = 3 ∨ k = 2 := by simpa using hk
  split at hf
  · next hcond =>
    simp only [Bool.and_eq_true, decide_eq_true_eq] at hcond
    cases hf
    refine ⟨by omega, by omega, hcond.1.1, hcond.1.2, hcond.2⟩
  · exact Option.noConfusion hf

theorem tryD1_shape {rest : List Char} {n : Nat} (h : tryD1 rest = some n) :
    ∃ k1 k2 r2, 2 ≤ k1 ∧ k1 ≤ 5 ∧ 2 ≤ k2 ∧ k2 ≤ 5
      ∧ (rest.take k1).length = k1 ∧ (rest.take k1).all Char.isDigit = true
      ∧ rest.drop k1 = 'x' :: r2
      ∧ (r2.take k2).length = k2 ∧ (r2.take k2).all Char.isDigit = true
      ∧ extLookahead (r2.drop k2) = true
      ∧ n = k1 + 1 + k2 := by
  rcases tryKs_mem h with ⟨k, hk, hf⟩
  have hkv : k = 5 ∨ k = 4 ∨ k = 3 ∨ k = 2 := by simpa using hk
  split at hf
  · next hcond =>
    simp only [Bool.and_eq_true, decide_eq_true_eq] at hcond
    split at hf
    · next r2 hdrop =>
      cases hd2 : tryD2 r2 with
      | none => rw [hd2] at hf; exact Option.noConfusion hf
      | some k2 =>
        rw [hd2] at hf
        simp only [Option.map_some', Option.some.injEq] at hf
        rcases tryD2_shape hd2 with ⟨h2a, h2b, h2c, h2d, h2e⟩
        exact ⟨k, k2, r2, by omega, by omega, h2a, h2b, hcond.1, hcond.2, hdrop,
          h2c, h2d, h2e, by omega⟩
    · exact Option.noConfusion hf
  · exact Option.noConfusion hf

theorem extLookahead_chars {t : List Char} (h : extLookahead t = true) :
    ∃ u, t = '.' :: u ∧ u ≠ []
      ∧ (u.all isAsciiLetter = true
        ∨ ∃ u', u = u' ++ ['\n'] ∧ u' ≠ [] ∧ u'.all isAsciiLetter = true) := by
  cases t with
  | nil => exact absurd h (by simp [extLookahead])
  | cons c rest =>
    rw [extLookahead] at h
    simp only [Bool.and_eq_true, beq_iff_eq] at h
    obtain ⟨rfl, h⟩ := h
    refine ⟨rest, rfl, ?_, ?_⟩
    · intro hnil
      subst hnil
      simp [dollarLetters] at h
    · cases hrev : rest.reverse with
      | nil => rw [hrev] at h; exact absurd h (by simp [dollarLetters])
      | cons d rs =>
        rw [hrev, dollarLetters] at h
        by_cases hd : d = '\n'
        · subst hd
          rw [if_pos rfl] at h
          simp only [Bool.and_eq_true, Bool.not_eq_true'] at h
          refine Or.inr ⟨rs.reverse, ?_, ?_, ?_⟩
          · have h2 := congrArg List.reverse hrev
            simpa using h2
          · intro hnil
            have hrs : rs = [] := by simpa using congrArg List.reverse hnil
            rw [hrs] at h
            simp at h
          · simpa using h.2
        · rw [if_neg hd] at h
          exact Or.inl h

theorem underscore_not_digit : Char.isDigit '_' = false := by decide

theorem underscore_not_letter : isAsciiLetter '_' = false := by decide

theorem all_not_mem {p : Char → Bool} {l : List Char} {c : Char}
    (h : l.all p = true) (hc : p c = false) : c ∉ l := by
  intro hmem
  rw [List.all_eq_true] at h
  rw [h c hmem] at hc
  exact Bool.noConfusion hc

theorem tryD1_no_underscore {rest : List Char} {n : Nat}
    (h : tryD1 rest = some n) : '_' ∉ rest := by
  rcases tryD1_shape h with
    ⟨k1, k2, r2, _, _, _, _, hlen1, hdig1, hdrop1, hlen2, hdig2, hlook, hn⟩
  rcases extLookahead_chars hlook with ⟨u, hu, hune, hualt⟩
  have hrest : rest = rest.take k1 ++ 'x' :: r2 := by
    conv_lhs => rw [← List.take_append_drop k1 rest]
    rw [hdrop1]
  have hr2 : r2 = r2.take k2 ++ '.' :: u := by
    conv_lhs => rw [← List.take_append_drop k2 r2]
    rw [hu]
  intro hmem
  rw [hrest] at hmem
  rcases List.mem_append.mp hmem with hmem | hmem
  · exact all_not_mem hdig1 underscore_not_digit hmem
  · rcases List.mem_cons.mp hmem with heq | hmem
    · exact absurd heq (by decide)
    · rw [hr2] at hmem
      rcases List.mem_append.mp hmem with hmem | hmem
      · exact all_not_mem hdig2 underscore_not_digit hmem
      · rcases List.mem_cons.mp hmem with heq | hmem
        · exact absurd heq (by decide)
        · rcases hualt with hlet | ⟨u', hu', _, hlet⟩
          · exact all_not_mem hlet underscore_not_letter hmem
          · rw [hu'] at hmem
            rcases List.mem_append.mp hmem with hmem | hmem
            · exact all_not_mem hlet underscore_not_letter hmem
            · simp at hmem

theorem scanStripRes_no_underscore {l : List Char} (h : '_' ∉ l) :
    scanStripRes l = l := by
  induction l with
  | nil => rfl
  | cons c rest ih =>
    rw [scanStripRes]
    rw [if_neg (fun hc => h (by rw [← hc]; exact List.mem_cons_self c rest))]
    rw [ih (fun hm => h (List.mem_cons_of_mem c hm))]

theorem tryKs_digit_eval {g : Nat → Option Nat} {m r : Nat} (hm2 : 2 ≤ m) (hm5 : m ≤ 5)
    (hbig : ∀ k, m < k → k ≤ 5 → g k = none) (hm : g m = some r) :
    tryKs g [5, 4, 3, 2] = some r := by
  interval_cases m
  · simp only [tryKs, hbig 5 (by omega) (by omega), hbig 4 (by omega) (by omega),
      hbig 3 (by omega) (by omega), hm]
  · simp only [tryKs, hbig 5 (by omega) (by omega), hbig 4 (by omega) (by omega), hm]
  · simp only [tryKs, hbig 5 (by omega) (by omega), hm]
  · simp only [tryKs, hm]

theorem digits_take_over_boundary {d : List Char} {c : Char} {t : List Char} {k : Nat}
    (hd : d.all Char.isDigit = true) (hc : Char.isDigit c = false)
    (hk : d.length < k) :
    ((d ++ c :: t).take k).all Char.isDigit = false := by
  rw [List.take_append_eq_append_take]
  rw [List.take_of_length_le (by omega)]
  have h1 : k - d.length ≠ 0 := by omega
  cases hkd : k - d.length with
  | zero => exact absurd hkd h1
  | succ m =>
    rw [List.take_cons (Nat.succ_pos m)]
    simp only [List.all_append, List.all_cons]
    simp [hc]

theorem extLookahead_letters {ext : List Char} (hne : ext ≠ [])
    (hlet : ext.all isAsciiLetter = true) : extLookahead ('.' :: ext) = true := by
  rw [extLookahead]
  cases hrev : ext.reverse with
  | nil => exact absurd (by simpa using congrArg List.reverse hrev) hne
  | cons c rs =>
    have hc : c ∈ ext := by
      rw [← List.mem_reverse, hrev]
      exact List.mem_cons_self _ _
    have hcl : isAsciiLetter c = true := List.all_eq_true.mp hlet c hc
    have hcn : ¬ c = '\n' := by
      intro hceq
      rw [hceq] at hcl
      exact absurd hcl (by decide)
    rw [dollarLetters, if_neg hcn]
    simp [hlet]

theorem tryD2_marker {hdl ext : List Char} (hdig : hdl.all Char.isDigit = true)
    (h2 : 2 ≤ hdl.length) (h5 : hdl.length ≤ 5) (hne : ext ≠ [])
    (hlet : ext.all isAsciiLetter = true) :
    tryD2 (hdl ++ '.' :: ext) = some hdl.length := by
  apply tryKs_digit_eval h2 h5
  · intro k hk _
    have hall := digits_take_over_boundary hdig (by decide) hk
      (c := '.') (t := ext)
    simp [hall]
  · have ht : (hdl ++ '.' :: ext).take hdl.length = hdl := List.take_left hdl _
    have hd : (hdl ++ '.' :: ext).drop hdl.length = '.' :: ext := List.drop_left hdl _
    rw [ht, hd]
    simp [hdig, extLookahead_letters hne hlet]

theorem tryD1_marker {w hdl ext : List Char} (hwdig : w.all Char.isDigit = true)
    (hw2 : 2 ≤ w.length) (hw5 : w.length ≤ 5)
    (hhdig : hdl.all Char.isDigit = true)
    (hh2 : 2 ≤ hdl.length) (hh5 : hdl.length ≤ 5)
    (hne : ext ≠ []) (hlet : ext.all isAsciiLetter = true) :
    tryD1 (w ++ 'x' :: (hdl ++ '.' :: ext)) = some (w.length + 1 + hdl.length) := by
  apply tryKs_digit_eval hw2 hw5
  · intro k hk _
    have hall := digits_take_over_boundary hwdig (by decide) hk
      (c := 'x') (t := hdl ++ '.' :: ext)
    simp [hall]
  · have ht : (w ++ 'x' :: (hdl ++ '.' :: ext)).take w.length = w := List.take_left w _
    have hd : (w ++ 'x' :: (hdl ++ '.' :: ext)).drop w.length = 'x' :: (hdl ++ '.' :: ext) :=
      List.drop_left w _
    rw [ht, hd]
    simp [hwdig, tryD2_marker hhdig hh2 hh5 hne hlet]

theorem scanStripRes_marker {w hdl ext : List Char} (hwdig : w.all Char.isDigit = true)
    (hw2 : 2 ≤ w.length) (hw5 : w.length ≤ 5)
    (hhdig : hdl.all Char.isDigit = true)
    (hh2 : 2 ≤ hdl.length) (hh5 : hdl.length ≤ 5)
    (hne : ext ≠ []) (hlet : ext.all isAsciiLetter = true) :
    ∀ pre : List Char,
      scanStripRes (pre ++ '_' :: (w ++ 'x' :: (hdl ++ '.' :: ext)))
        = pre ++ '.' :: ext := by
  intro pre
  induction pre with
  | nil =>
    simp only [List.nil_append]
    rw [scanStripRes, if_pos rfl,
      tryD1_marker hwdig hw2 hw5 hhdig hh2 hh5 hne hlet]
    have hdrop : (w ++ 'x' :: (hdl ++ '.' :: ext)).drop (w.length + 1 + hdl.length)
        = '.' :: ext := by
      have h1 : w.length + 1 + hdl.length = w.length + (1 + hdl.length) := by omega
      rw [h1, List.drop_append]
      have h2 : 1 + hdl.length = ('x' :: hdl).length := by simp; omega
      rw [h2]
      have h3 : ('x' :: (hdl ++ '.' :: ext)) = ('x' :: hdl) ++ '.' :: ext := by simp
      rw [h3]
      have h4 := @List.drop_append Char ('x' :: hdl) ('.' :: ext) 0
      simpa using h4
    exact hdrop
  | cons c pre' ih =>
    rw [List.cons_append, scanStripRes]
    by_cases hc : c = '_'
    · rw [if_pos hc]
      cases htry : tryD1 (pre' ++ '_' :: (w ++ 'x' :: (hdl ++ '.' :: ext))) with
      | some n =>
        exfalso
        apply tryD1_no_underscore htry
        exact List.mem_append.mpr (Or.inr (List.mem_cons_self _ _))
      | none =>
        rw [ih]
        simp
    · rw [if_neg hc, ih]
      simp

theorem takeWhile_append_elem {p : Char → Bool} {r : List Char} {x : Char}
    (h : r.dropWhile p ≠ []) : (r ++ [x]).takeWhile p = r.takeWhile p := by
  induction r with
  | nil => exact absurd rfl h
  | cons a r' ih =>
    rw [List.cons_append, List.takeWhile_cons, List.takeWhile_cons]
    by_cases hpa : p a
    · rw [List.dropWhile_cons, if_pos hpa] at h
      simp only [hpa, if_true]
      rw [ih h]
    · simp [hpa]

theorem dropWhile_append_elem {p : Char → Bool} {r : List Char} {x : Char}
    (h : r.dropWhile p ≠ []) : (r ++ [x]).dropWhile p = r.dropWhile p ++ [x] := by
  induction r with
  | nil => exact absurd rfl h
  | cons a r' ih =>
    rw [List.cons_append, List.dropWhile_cons, List.dropWhile_cons]
    by_cases hpa : p a
    · rw [List.dropWhile_cons, if_pos hpa] at h
      simp only [hpa, if_true]
      exact ih h
    · simp [hpa]

/-- The decomposition 'base ends in `_WxH.ext`' as an explicit existential. -/
def MarkerDecomp (base : List Char) : Prop :=
  ∃ pre w hdl ext : List Char,
    base = pre ++ '_' :: (w ++ 'x' :: (hdl ++ '.' :: ext))
    ∧ w.all Char.isDigit = true ∧ 2 ≤ w.length ∧ w.length ≤ 5
    ∧ hdl.all Char.isDigit = true ∧ 2 ≤ hdl.length ∧ hdl.length ≤ 5
    ∧ ext ≠ [] ∧ ext.all isAsciiLetter = true

theorem hTM_of_decomp {base : List Char} (h : MarkerDecomp base) :
    hasTrailingMarker base = true := by
  rcases h with ⟨pre, w, hdl, ext, hb, hwd, hw2, hw5, hhd, hh2, hh5, hene, helet⟩
  have hrev : base.reverse
      = ext.reverse ++ '.' :: (hdl.reverse ++ 'x' :: (w.reverse ++ '_' :: pre.reverse)) := by
    rw [hb]
    simp
  have hletrev : ∀ a ∈ ext.reverse, isAsciiLetter a = true := by
    intro a ha
    exact List.all_eq_true.mp helet a (List.mem_reverse.mp ha)
  have hhdrev : ∀ a ∈ hdl.reverse, Char.isDigit a = true := by
    intro a ha
    exact List.all_eq_true.mp hhd a (List.mem_reverse.mp ha)
  have hwrev : ∀ a ∈ w.reverse, Char.isDigit a = true := by
    intro a ha
    exact List.all_eq_true.mp hwd a (List.mem_reverse.mp ha)
  rw [hasTrailingMarker, hrev]
  rw [list_takeWhile_append_of_all hletrev, list_dropWhile_append_of_all hletrev]
  rw [List.takeWhile_cons, List.dropWhile_cons]
  simp only [show isAsciiLetter '.' = false from by decide, if_false,
    Bool.false_eq_true, List.append_nil]
  rw [list_takeWhile_append_of_all hhdrev, list_dropWhile_append_of_all hhdrev]
  rw [List.takeWhile_cons, List.dropWhile_cons]
  simp only [show Char.isDigit 'x' = false from by decide, if_false,
    Bool.false_eq_true, List.append_nil]
  rw [list_takeWhile_append_of_all hwrev, list_dropWhile_append_of_all hwrev]
  rw [List.takeWhile_cons, List.dropWhile_cons]
  simp only [show Char.isDigit '_' = false from by decide, if_false,
    Bool.false_eq_true, List.append_nil]
  have hextne : ext.reverse ≠ [] := by
    intro hnil
    exact hene (by simpa using congrArg List.reverse hnil)
  simp [hextne, hh2, hh5, hw2, hw5]

theorem decomp_of_hTM {base : List Char} (h : hasTrailingMarker base = true) :
    MarkerDecomp base := by
  rw [hasTrailingMarker] at h
  split at h
  · next r2 heq1 =>
    rw [Bool.and_eq_true] at h
    obtain ⟨hext, h⟩ := h
    split at h
    · next r4 heq2 =>
      rw [Bool.and_eq_true] at h
      obtain ⟨hw, h⟩ := h
      split at h
      · next tail heq3 =>
        simp only [Bool.and_eq_true, Bool.not_eq_true', List.isEmpty_eq_false,
          decide_eq_true_eq] at hext hw
        refine ⟨tail.reverse, (r4.takeWhile Char.isDigit).reverse,
          (r2.takeWhile Char.isDigit).reverse,
          (base.reverse.takeWhile isAsciiLetter).reverse, ?_, ?_, ?_, ?_, ?_, ?_, ?_, ?_, ?_⟩
        · have hbase : base.reverse
              = base.reverse.takeWhile isAsciiLetter
                ++ '.' :: (r2.takeWhile Char.isDigit
                  ++ 'x' :: (r4.takeWhile Char.isDigit ++ '_' :: tail)) := by
            conv_lhs => rw [← List.takeWhile_append_dropWhile
              (p := isAsciiLetter) (l := base.reverse)]
            rw [heq1]
            congr 1
            rw [List.cons.injEq]
            refine ⟨rfl, ?_⟩
            conv_lhs => rw [← List.takeWhile_append_dropWhile
              (p := Char.isDigit) (l := r2)]
            rw [heq2]
            congr 1
            rw [List.cons.injEq]
            refine ⟨rfl, ?_⟩
            conv_lhs => rw [← List.takeWhile_append_dropWhile
              (p := Char.isDigit) (l := r4)]
            rw [heq3]
          have hb2 := congrArg List.reverse hbase
          rw [List.reverse_reverse] at hb2
          conv_lhs => rw [hb2]
          simp
        · rw [List.all_eq_true]
          intro a ha
          exact @mem_takeWhile_sat Char.isDigit r4 a (List.mem_reverse.mp ha)
        · rw [List.length_reverse]
          exact hw.1
        · rw [List.length_reverse]
          exact hw.2
        · rw [List.all_eq_true]
          intro a ha
          exact @mem_takeWhile_sat Char.isDigit r2 a (List.mem_reverse.mp ha)
        · rw [List.length_reverse]
          exact hext.1.2
        · rw [List.length_reverse]
          exact hext.2
        · intro hnil
          have : base.reverse.takeWhile isAsciiLetter = [] := by
            simpa using congrArg List.reverse hnil
          exact hext.1.1 this
        · rw [List.all_eq_true]
          intro a ha
          exact @mem_takeWhile_sat isAsciiLetter base.reverse a (List.mem_reverse.mp ha)
      · exact Bool.noConfusion h
    · exact Bool.noConfusion h
  · exact Bool.noConfusion h

theorem hTM_cons {rest : List Char} (c : Char)
    (h : hasTrailingMarker rest = true) : hasTrailingMarker (c :: rest) = true := by
  rcases decomp_of_hTM h with ⟨pre, w, hdl, ext, hb, rest_props⟩
  apply hTM_of_decomp
  exact ⟨c :: pre, w, hdl, ext, by rw [List.cons_append, ← hb], rest_props⟩

theorem noNewline_of_tail {c : Char} {rest : List Char}
    (h : noNewline (c :: rest) = true) : noNewline rest = true := by
  simp only [noNewline, List.all_cons, Bool.and_eq_true] at h
  exact h.2

theorem scanStripRes_changed {base : List Char} (hnl : noNewline base = true)
    (hch : scanStripRes base ≠ base) : hasTrailingMarker base = true := by
  induction base with
  | nil => exact absurd rfl hch
  | cons c rest ih =>
    have hnlr : noNewline rest = true := noNewline_of_tail hnl
    rw [scanStripRes] at hch
    by_cases hc : c = '_'
    · rw [if_pos hc] at hch
      cases htry : tryD1 rest with
      | none =>
        rw [htry] at hch
        have hch' : scanStripRes rest ≠ rest := by
          intro he
          exact hch (by rw [he])
        exact hTM_cons c (ih hnlr hch')
      | some n =>
        rcases tryD1_shape htry with
          ⟨k1, k2, r2, hk1a, hk1b, hk2a, hk2b, hlen1, hdig1, hdrop1,
            hlen2, hdig2, hlook, hn⟩
        rcases extLookahead_chars hlook with ⟨u, hu, hune, hualt⟩
        have hrest : rest = rest.take k1 ++ 'x' :: r2 := by
          conv_lhs => rw [← List.take_append_drop k1 rest]
          rw [hdrop1]
        have hr2 : r2 = r2.take k2 ++ '.' :: u := by
          conv_lhs => rw [← List.take_append_drop k2 r2]
          rw [hu]
        have hult : u.all isAsciiLetter = true := by
          rcases hualt with hl | ⟨u', hu', _, _⟩
          · exact hl
          · exfalso
            have hmem : '\n' ∈ rest := by
              rw [hrest]
              refine List.mem_append.mpr (Or.inr ?_)
              refine List.mem_cons_of_mem _ ?_
              rw [hr2]
              refine List.mem_append.mpr (Or.inr ?_)
              refine List.mem_cons_of_mem _ ?_
              rw [hu']
              exact List.mem_append.mpr (Or.inr (List.mem_cons_self _ _))
            rw [noNewline, List.all_eq_true] at hnlr
            have := hnlr '\n' hmem
            simp at this
        subst hc
        apply hTM_of_decomp
        refine ⟨[], rest.take k1, r2.take k2, u, ?_, hdig1, ?_, ?_, hdig2, ?_, ?_,
          hune, hult⟩
        · rw [List.nil_append]
          conv_lhs => rw [hrest]
          conv_lhs => rw [hr2]
        · omega
        · omega
        · omega
        · omega
    · rw [if_neg hc] at hch
      have hch' : scanStripRes rest ≠ rest := by
        intro he
        exact hch (by rw [he])
      exact hTM_cons c (ih hnlr hch')

theorem mem_of_mem_takeWhile {p : Char → Bool} {l : List Char} {a : Char}
    (h : a ∈ l.takeWhile p) : a ∈ l := by
  induction l with
  | nil => simpa using h
  | cons b l ih =>
    rw [List.takeWhile_cons] at h
    by_cases hb : p b
    · simp only [hb, if_true, List.mem_cons] at h
      rcases h with rfl | h
      · exact List.mem_cons_self _ _
      · exact List.mem_cons_of_mem _ (ih h)
    · simp [hb] at h

theorem digit_ne_qmark {c : Char} (h : Char.isDigit c = true) : (c != '?') = true := by
  rcases eq_or_ne c '?' with rfl | hne
  · exact absurd h (by decide)
  · simp [hne]

theorem letter_ne_qmark {c : Char} (h : isAsciiLetter c = true) : (c != '?') = true := by
  rcases eq_or_ne c '?' with rfl | hne
  · exact absurd h (by decide)
  · simp [hne]

/-- C5: `strip_resolution_suffix` removes exactly a trailing `_WxH`
marker (W and H each 2–5 digits) sitting immediately before the file
extension of the pre-query part of the URL, preserving the query string
unchanged; and it returns any (newline-free) URL whose pre-query part has
no such trailing marker — including URLs with a `_WxH` substring in a
non-trailing position — completely unchanged. -/
theorem c5_strip_resolution_suffix_spec :
    (∀ pre w hgt ext q : String,
      w.data.all Char.isDigit = true → 2 ≤ w.length → w.length ≤ 5 →
      hgt.data.all Char.isDigit = true → 2 ≤ hgt.length → hgt.length ≤ 5 →
      ext ≠ "" → ext.data.all isAsciiLetter = true →
      pre.data.all (fun c => c != '?') = true →
      (q = "" ∨ q.data.head? = some '?') →
      strip_resolution_suffix (pre ++ "_" ++ w ++ "x" ++ hgt ++ "." ++ ext ++ q)
        = pre ++ "." ++ ext ++ q)
    ∧ (∀ url : String, noNewline url.data = true →
        hasTrailingMarker (url.data.takeWhile (fun c => c != '?')) = false →
        strip_resolution_suffix url = url) := by
  constructor
  · intro pre w hgt ext q hw hw2 hw5 hh hh2 hh5 hextne hextl hpreQ hq
    have hextdne : ext.data ≠ [] := by
      intro hnil
      exact hextne (String.ext hnil)
    have hdata : (pre ++ "_" ++ w ++ "x" ++ hgt ++ "." ++ ext ++ q).data
        = (pre.data ++ '_' :: (w.data ++ 'x' :: (hgt.data ++ '.' :: ext.data)))
          ++ q.data := by
      simp [String.data_append]
    have hPQ : ∀ c ∈ pre.data ++ '_' :: (w.data ++ 'x' :: (hgt.data ++ '.' :: ext.data)),
        (fun c => c != '?') c = true := by
      intro c hc
      simp only [List.mem_append, List.mem_cons] at hc
      rcases hc with hc | rfl | hc | rfl | hc | rfl | hc
      · exact List.all_eq_true.mp hpreQ c hc
      · decide
      · exact digit_ne_qmark (List.all_eq_true.mp hw c hc)
      · decide
      · exact digit_ne_qmark (List.all_eq_true.mp hh c hc)
      · decide
      · exact letter_ne_qmark (List.all_eq_true.mp hextl c hc)
    have htake : ((pre.data ++ '_' :: (w.data ++ 'x' :: (hgt.data ++ '.' :: ext.data)))
        ++ q.data).takeWhile (fun c => c != '?')
        = pre.data ++ '_' :: (w.data ++ 'x' :: (hgt.data ++ '.' :: ext.data)) := by
      rw [list_takeWhile_append_of_all hPQ]
      rcases hq with rfl | hq
      · simp
      · cases hqd : q.data with
        | nil => simp
        | cons c t =>
          rw [hqd] at hq
          simp only [List.head?_cons, Option.some.injEq] at hq
          subst hq
          simp [List.takeWhile_cons]
    have hdrop : ((pre.data ++ '_' :: (w.data ++ 'x' :: (hgt.data ++ '.' :: ext.data)))
        ++ q.data).dropWhile (fun c => c != '?') = q.data := by
      rw [list_dropWhile_append_of_all hPQ]
      rcases hq with rfl | hq
      · simp
      · cases hqd : q.data with
        | nil => simp
        | cons c t =>
          rw [hqd] at hq
          simp only [List.head?_cons, Option.some.injEq] at hq
          subst hq
          simp [List.dropWhile_cons]
    have hscan := scanStripRes_marker hw hw2 hw5 hh hh2 hh5 hextdne hextl pre.data
    apply String.ext
    rw [strip_resolution_suffix]
    simp only [hdata, htake, hdrop]
    rw [hscan]
    simp [String.data_append]
  · intro url hnl hTMf
    have hnlb : noNewline (url.data.takeWhile (fun c => c != '?')) = true := by
      rw [noNewline, List.all_eq_true]
      intro a ha
      rw [noNewline, List.all_eq_true] at hnl
      exact hnl a (mem_of_mem_takeWhile ha)
    have hscan : scanStripRes (url.data.takeWhile (fun c => c != '?'))
        = url.data.takeWhile (fun c => c != '?') := by
      by_contra hne
      rw [scanStripRes_changed hnlb hne] at hTMf
      exact Bool.noConfusion hTMf
    apply String.ext
    rw [strip_resolution_suffix]
    simp only [hscan]
    exact List.takeWhile_append_dropWhile _ _

theorem c5_witness :
    (strip_resolution_suffix
        ("https://x/im" ++ "_" ++ "352" ++ "x" ++ "192" ++ "." ++ "jpg" ++ "?v=1")
      = "https://x/im" ++ "." ++ "jpg" ++ "?v=1")
    ∧ strip_resolution_suffix "https://x/a_12x34_large.png"
        = "https://x/a_12x34_large.png" :=
  ⟨c5_strip_resolution_suffix_spec.1 "https://x/im" "352" "192" "jpg" "?v=1"
      (by decide) (by decide) (by decide) (by decide) (by decide) (by decide)
      (by decide) (by decide) (by decide) (Or.inr (by decide)),
    c5_strip_resolution_suffix_spec.2 "https://x/a_12x34_large.png"
      (by decide) (by decide)⟩
